import Mathlib

/-!
Verification development for the news-collection pipeline of this repository
(file `뉴스기사수집.py`).  The Python source is embedded shallowly: strings are
`List Char` (Unicode scalar values, as in Python), the relevant parts of
`urllib.parse` (`urlparse`, `parse_qs`, `quote_plus`/`unquote`, `urlencode`,
`urlunparse`) are translated function by function, and the stateful
`fetch_news` loop becomes explicit state passing over the list of candidate
time-marker spans.
-/

namespace News

/-- Abbreviation: a Python string, seen as its list of Unicode scalar values. -/
abbrev Str := List Char

/-- Whitespace as used by Python `str.split()` / `str.strip()` and by the
regex class `\s` on the characters appearing in this program: space, tab,
newline, carriage return, vertical tab, form feed.  (The full Unicode
whitespace sets of Python contain further exotic code points that never
occur in the scraped time-marker texts; they are not modelled.) -/
def pyIsSpace (c : Char) : Bool :=
  c = ' ' || c = '\t' || c = '\n' || c = '\r' || c = '\x0b' || c = '\x0c'

/-- ASCII lower-casing of one character, as done by `str.lower()`/`str.casefold()`
on the ASCII range (case mapping of non-ASCII letters is not exercised by
this program's inputs and is not modelled). -/
def asciiLower (c : Char) : Char :=
  if 'A' ≤ c ∧ c ≤ 'Z' then Char.ofNat (c.toNat + 32) else c

/-- Python `str.lower()` (ASCII fragment), character by character. -/
def pyLower (s : Str) : Str := s.map asciiLower

/-- Python `str.strip()`: drop leading and trailing whitespace. -/
def pyStrip (s : Str) : Str :=
  ((s.dropWhile pyIsSpace).reverse.dropWhile pyIsSpace).reverse

/-- Helper for `pySplitWs`: accumulate the current (reversed) token. -/
def pySplitWsAux : Str → Str → List Str
  | [], acc => if acc = [] then [] else [acc.reverse]
  | c :: rest, acc =>
    if pyIsSpace c then
      if acc = [] then pySplitWsAux rest []
      else acc.reverse :: pySplitWsAux rest []
    else pySplitWsAux rest (c :: acc)

/-- Python `str.split()` with no separator: split on whitespace runs,
discarding empty tokens. -/
def pySplitWs (s : Str) : List Str := pySplitWsAux s []

/-- Python `" ".join(tokens)`. -/
def joinSpace : List Str → Str
  | [] => []
  | [t] => t
  | t :: rest => t ++ ' ' :: joinSpace rest

/-- Source `normalize_title` (line 80): `" ".join((t or "").casefold().split())`.
`casefold` is modelled by its ASCII case mapping. -/
def normalize_title (t : Str) : Str :=
  joinSpace (pySplitWs (pyLower t))

/-- Decimal digit test (regex class `[0-9]`). -/
def isDigitCh (c : Char) : Bool := '0' ≤ c ∧ c ≤ '9'

/-- Tail of both time-marker regexes after the digits: `\s*UNIT\s*전`
matched against the (entire) rest of the string, where `UNIT` is the given
character sequence (`분` or `시간`).  Greedy `\s*` is equivalent to
`dropWhile` here because the unit characters and `전` are not whitespace. -/
def relTail (unit : Str) (l : Str) : Bool :=
  let l1 := l.dropWhile pyIsSpace
  if l1.take unit.length = unit then
    (l1.drop unit.length).dropWhile pyIsSpace = ['전']
  else false

/-- Full match of `([1-9]|[1-5][0-9])\s*분\s*전` against `l`. -/
def relMinutes (l : Str) : Bool :=
  match l with
  | d1 :: rest =>
    (('1' ≤ d1 ∧ d1 ≤ '9') ∧ relTail ['분'] rest) ||
    (match rest with
     | d2 :: rest2 => ('1' ≤ d1 ∧ d1 ≤ '5') ∧ isDigitCh d2 ∧ relTail ['분'] rest2
     | [] => false)
  | [] => false

/-- Full match of `([1-9]|1[0-9]|2[0-3])\s*시간\s*전` against `l`. -/
def relHours (l : Str) : Bool :=
  match l with
  | d1 :: rest =>
    (('1' ≤ d1 ∧ d1 ≤ '9') ∧ relTail ['시', '간'] rest) ||
    (match rest with
     | d2 :: rest2 =>
       ((d1 = '1' ∧ isDigitCh d2) ∨ (d1 = '2' ∧ '0' ≤ d2 ∧ d2 ≤ '3')) ∧
         relTail ['시', '간'] rest2
     | [] => false)
  | [] => false

/-- Source `parse_relative_allowed` (lines 70-75): strip the text, then
full-match one of the two relative-time regexes. -/
def parse_relative_allowed (text : Str) : Bool :=
  let t := pyStrip text
  relMinutes t || relHours t

/-! ### `urllib.parse`: URL splitting

Translated from CPython 3.11 `urllib/parse.py` (`urlsplit`, `_splitnetloc`,
`_splitparams`, `urlparse`): leading C0-control/space stripping, tab/CR/LF
removal, scheme and netloc splitting, and the IPv6 bracket-mismatch
`ValueError` (modelled as `none`).  The deep validation of bracketed hosts
(`_check_bracketed_host`, which re-parses `[…]` contents as an IP address)
and the NFKC netloc check (`_checknetloc`) are not modelled: they reject
only exotic bracketed or confusable-host URLs that this program never
produces or consumes. -/

/-- Leading characters stripped by `urlsplit`
(`_WHATWG_C0_CONTROL_OR_SPACE`: code points `0x00`–`0x20`). -/
def isC0OrSpace (c : Char) : Bool := c.toNat ≤ 0x20

/-- Bytes removed everywhere by `urlsplit` (`_UNSAFE_URL_BYTES_TO_REMOVE`). -/
def isUnsafeUrlByte (c : Char) : Bool := c = '\t' || c = '\r' || c = '\n'

/-- Input sanitisation of `urlsplit`: `lstrip` of C0 controls and space,
then removal of every tab, CR and LF. -/
def sanitizeUrl (url : Str) : Str :=
  (url.dropWhile isC0OrSpace).filter (fun c => ¬ isUnsafeUrlByte c)

/-- ASCII letter test (`str.isascii() and str.isalpha()`). -/
def isAsciiAlpha (c : Char) : Bool :=
  ('A' ≤ c ∧ c ≤ 'Z') || ('a' ≤ c ∧ c ≤ 'z')

/-- Characters allowed in a URL scheme (`scheme_chars`). -/
def isSchemeChar (c : Char) : Bool :=
  isAsciiAlpha c || isDigitCh c || c = '+' || c = '-' || c = '.'

/-- Result of `urlparse`: the six components of a URL. -/
structure UrlParts where
  scheme : Str
  netloc : Str
  path : Str
  params : Str
  query : Str
  fragment : Str
deriving Repr, DecidableEq

/-- Scheme extraction of `urlsplit`: if the text before the first `:` is a
nonempty run of scheme characters starting with an ASCII letter, it is the
(lower-cased) scheme; otherwise there is no scheme. -/
def splitScheme (url : Str) : Str × Str :=
  let pre := url.takeWhile (· ≠ ':')
  if pre.length < url.length ∧ pre ≠ [] ∧ isAsciiAlpha (pre.headD ' ') ∧
      pre.all isSchemeChar then
    (pyLower pre, url.drop (pre.length + 1))
  else ([], url)

/-- Characters delimiting the end of the netloc (`_splitnetloc`). -/
def isNetlocDelim (c : Char) : Bool := c = '/' || c = '?' || c = '#'

/-- Netloc extraction of `urlsplit`: after a leading `//`, the netloc runs to
the next `/`, `?` or `#`.  A mismatched `[`/`]` raises
`ValueError("Invalid IPv6 URL")`, modelled as `none`. -/
def splitNetloc (rest : Str) : Option (Str × Str) :=
  if rest.take 2 = ['/', '/'] then
    let after := rest.drop 2
    let netloc := after.takeWhile (fun c => ¬ isNetlocDelim c)
    let remain := after.drop netloc.length
    if (('[' ∈ netloc) ∧ (']' ∉ netloc)) ∨ ((']' ∈ netloc) ∧ ('[' ∉ netloc)) then
      none
    else some (netloc, remain)
  else some ([], rest)

/-- Python `url.split(sep, 1)` combined with the containment test: the part
before the first occurrence of `sep`, and the part after it (empty when
`sep` does not occur, matching the unchanged-component case). -/
def breakAtFirst (sep : Char) (l : Str) : Str × Str :=
  let pre := l.takeWhile (· ≠ sep)
  (pre, l.drop (pre.length + 1))

/-- Schemes for which `urlparse` separates path params
(`urllib.parse.uses_params`). -/
def uses_params : List Str :=
  ["", "ftp", "hdl", "prospero", "http", "imap", "https", "shttp", "rtsp",
   "rtsps", "rtspu", "sip", "sips", "mms", "sftp", "tel"].map String.toList

/-- CPython `_splitparams`, guarded by `urlparse`'s `';' in url` test: split
the params off the last path segment at its first `;`. -/
def splitParamsPart (path : Str) : Str × Str :=
  if ';' ∈ path then
    if '/' ∈ path then
      let lastSeg := (path.reverse.takeWhile (· ≠ '/')).reverse
      if ';' ∈ lastSeg then
        let pre := lastSeg.takeWhile (· ≠ ';')
        (path.take (path.length - lastSeg.length) ++ pre,
         lastSeg.drop (pre.length + 1))
      else (path, [])
    else
      let pre := path.takeWhile (· ≠ ';')
      (pre, path.drop (pre.length + 1))
  else (path, [])

/-- `urllib.parse.urlparse` (= `urlsplit` followed by `_splitparams`);
`none` models the `ValueError` escape hatch. -/
def urlparse (rawUrl : Str) : Option UrlParts :=
  let url := sanitizeUrl rawUrl
  let sp := splitScheme url
  match splitNetloc sp.2 with
  | none => none
  | some nl =>
    let bf := breakAtFirst '#' nl.2
    let bq := breakAtFirst '?' bf.1
    let pp := if sp.1 ∈ uses_params then splitParamsPart bq.1 else (bq.1, [])
    some ⟨sp.1, nl.1, pp.1, pp.2, bq.2, bf.2⟩

/-! ### `urllib.parse`: percent-codec (`quote_plus`, `unquote`) -/

/-- Characters never percent-encoded by `quote` (`_ALWAYS_SAFE`):
ASCII letters, digits, `_ . - ~`. -/
def isAlwaysSafe (c : Char) : Bool :=
  isAsciiAlpha c || isDigitCh c || c = '_' || c = '.' || c = '-' || c = '~'

/-- UTF-8 encoding of one Unicode scalar value. -/
def utf8EncodeChar (c : Char) : List Nat :=
  let n := c.toNat
  if n < 0x80 then [n]
  else if n < 0x800 then [0xC0 + n / 0x40, 0x80 + n % 0x40]
  else if n < 0x10000 then
    [0xE0 + n / 0x1000, 0x80 + (n / 0x40) % 0x40, 0x80 + n % 0x40]
  else
    [0xF0 + n / 0x40000, 0x80 + (n / 0x1000) % 0x40, 0x80 + (n / 0x40) % 0x40,
     0x80 + n % 0x40]

/-- Upper-case hex digit, as produced by `quote`. -/
def hexUpper (n : Nat) : Char :=
  if n < 10 then Char.ofNat (48 + n) else Char.ofNat (55 + n)

/-- Percent-escape of one byte: `%XX` with upper-case hex. -/
def pctByte (b : Nat) : Str := ['%', hexUpper (b / 16), hexUpper (b % 16)]

/-- Concat-map on lists, kept as a named recursion for clean induction. -/
def cmap (f : α → List β) : List α → List β
  | [] => []
  | a :: as => f a ++ cmap f as

/-- `urllib.parse.quote_plus` with default arguments: spaces become `+`,
always-safe characters pass through, every other character is replaced by
the percent-escapes of its UTF-8 bytes. -/
def quote_plus (s : Str) : Str :=
  cmap (fun c =>
    if c = ' ' then ['+']
    else if isAlwaysSafe c then [c]
    else cmap pctByte (utf8EncodeChar c)) s

/-- Hex digit value (`_hextobyte` accepts both cases). -/
def hexVal (c : Char) : Option Nat :=
  if '0' ≤ c ∧ c ≤ '9' then some (c.toNat - 48)
  else if 'A' ≤ c ∧ c ≤ 'F' then some (c.toNat - 55)
  else if 'a' ≤ c ∧ c ≤ 'f' then some (c.toNat - 87)
  else none

/-- The Unicode replacement character U+FFFD. -/
def replChar : Char := Char.ofNat 0xFFFD

/-- UTF-8 continuation-byte test. -/
def isCont (b : Nat) : Bool := 0x80 ≤ b ∧ b ≤ 0xBF

/-- Allowed second byte after a given lead byte (the ranges that exclude
overlong encodings, surrogates and values above U+10FFFF, as enforced by
Python's `errors='replace'` UTF-8 decoder). -/
def utf8Valid2 (lead b1 : Nat) : Bool :=
  if lead = 0xE0 then 0xA0 ≤ b1 ∧ b1 ≤ 0xBF
  else if lead = 0xED then 0x80 ≤ b1 ∧ b1 ≤ 0x9F
  else if lead = 0xF0 then 0x90 ≤ b1 ∧ b1 ≤ 0xBF
  else if lead = 0xF4 then 0x80 ≤ b1 ∧ b1 ≤ 0x8F
  else isCont b1

/-- UTF-8 decoding with `errors='replace'` (maximal-subpart replacement):
an invalid or truncated sequence yields U+FFFD and decoding resumes after
the bytes consumed so far. -/
def utf8Decode : List Nat → Str
  | [] => []
  | b :: bs =>
    if b < 0x80 then Char.ofNat b :: utf8Decode bs
    else if b < 0xC2 then replChar :: utf8Decode bs
    else if b < 0xE0 then
      match bs with
      | b1 :: bs1 =>
        if isCont b1 then
          Char.ofNat ((b - 0xC0) * 0x40 + (b1 - 0x80)) :: utf8Decode bs1
        else replChar :: utf8Decode (b1 :: bs1)
      | [] => [replChar]
    else if b < 0xF0 then
      match bs with
      | b1 :: bs1 =>
        if utf8Valid2 b b1 then
          match bs1 with
          | b2 :: bs2 =>
            if isCont b2 then
              Char.ofNat ((b - 0xE0) * 0x1000 + (b1 - 0x80) * 0x40 + (b2 - 0x80)) ::
                utf8Decode bs2
            else replChar :: utf8Decode (b2 :: bs2)
          | [] => [replChar]
        else replChar :: utf8Decode (b1 :: bs1)
      | [] => [replChar]
    else if b < 0xF5 then
      match bs with
      | b1 :: bs1 =>
        if utf8Valid2 b b1 then
          match bs1 with
          | b2 :: bs2 =>
            if isCont b2 then
              match bs2 with
              | b3 :: bs3 =>
                if isCont b3 then
                  Char.ofNat ((b - 0xF0) * 0x40000 + (b1 - 0x80) * 0x1000 +
                    (b2 - 0x80) * 0x40 + (b3 - 0x80)) :: utf8Decode bs3
                else replChar :: utf8Decode (b3 :: bs3)
              | [] => [replChar]
            else replChar :: utf8Decode (b2 :: bs2)
          | [] => [replChar]
        else replChar :: utf8Decode (b1 :: bs1)
      | [] => [replChar]
    else replChar :: utf8Decode bs

/-- Scanner of `unquote`: ASCII characters and valid `%XX` escapes are
gathered into byte runs that are UTF-8-decoded together; a non-ASCII
character flushes the current run and passes through unchanged.  (The
first equation handles strings long enough to hold a `%XX` escape; the
second handles the one- and two-character tails, where a `%` is always
literal.) -/
def unquoteGo : Str → List Nat → Str
  | c :: h1 :: h2 :: rest2, acc =>
    if c = '%' then
      match hexVal h1, hexVal h2 with
      | some v1, some v2 => unquoteGo rest2 ((v1 * 16 + v2) :: acc)
      | _, _ => unquoteGo (h1 :: h2 :: rest2) (0x25 :: acc)
    else if c.toNat < 0x80 then unquoteGo (h1 :: h2 :: rest2) (c.toNat :: acc)
    else utf8Decode acc.reverse ++ c :: unquoteGo (h1 :: h2 :: rest2) []
  | c :: rest, acc =>
    if c.toNat < 0x80 then unquoteGo rest (c.toNat :: acc)
    else utf8Decode acc.reverse ++ c :: unquoteGo rest []
  | [], acc => utf8Decode acc.reverse

/-- `urllib.parse.unquote` with defaults (`utf-8`, `errors='replace'`). -/
def pyUnquote (s : Str) : Str := unquoteGo s []

/-- Python `s.replace('+', ' ')`. -/
def plusToSpace (s : Str) : Str := s.map (fun c => if c = '+' then ' ' else c)

/-- `urllib.parse.unquote_plus`. -/
def unquote_plus (s : Str) : Str := pyUnquote (plusToSpace s)

/-! ### `urllib.parse`: query strings and unparsing -/

/-- Python `str.split(sep)`: split at every occurrence, keeping empties. -/
def splitSepAux (sep : Char) : Str → Str → List Str
  | [], acc => [acc.reverse]
  | c :: rest, acc =>
    if c = sep then acc.reverse :: splitSepAux sep rest []
    else splitSepAux sep rest (c :: acc)

/-- Python `str.split(sep)`. -/
def splitSep (sep : Char) (l : Str) : List Str := splitSepAux sep l []

/-- `urllib.parse.parse_qsl` with default separator `&` and
`strict_parsing=False`: empty chunks are skipped; a chunk without `=` is
kept (with empty value) only when `keep_blank_values`; a chunk with an
empty value is kept only when `keep_blank_values`; names and values are
`unquote_plus`-decoded. -/
def parse_qsl (keepBlank : Bool) (qs : Str) : List (Str × Str) :=
  let pieces := if qs = [] then [] else splitSep '&' qs
  pieces.filterMap (fun nv =>
    if nv = [] then none
    else
      let name := nv.takeWhile (· ≠ '=')
      if name.length = nv.length then
        if keepBlank then some (unquote_plus name, []) else none
      else
        let value := nv.drop (name.length + 1)
        if value ≠ [] ∨ keepBlank then
          some (unquote_plus name, unquote_plus value)
        else none)

/-- Append one `(name, value)` pair into the dict of `parse_qs`
(Python dicts keep insertion order of keys, values are appended). -/
def qsInsert : List (Str × List Str) → Str → Str → List (Str × List Str)
  | [], k, v => [(k, [v])]
  | (k0, vs) :: rest, k, v =>
    if k0 = k then (k0, vs ++ [v]) :: rest
    else (k0, vs) :: qsInsert rest k v

/-- `urllib.parse.parse_qs`, as an insertion-ordered association list. -/
def parse_qs (keepBlank : Bool) (qs : Str) : List (Str × List Str) :=
  (parse_qsl keepBlank qs).foldl (fun d p => qsInsert d p.1 p.2) []

/-- Join strings with a single-character separator. -/
def joinSep (sep : Char) : List Str → Str
  | [] => []
  | [x] => x
  | x :: rest => x ++ sep :: joinSep sep rest

/-- `urllib.parse.urlencode` with `doseq=True` on a dict whose values are
lists of strings: one `quote_plus(k)=quote_plus(v)` chunk per value, joined
by `&`, in dict order. -/
def urlencode (m : List (Str × List Str)) : Str :=
  joinSep '&' (cmap (fun p => p.2.map (fun v => quote_plus p.1 ++ '=' :: quote_plus v)) m)

/-- One `(key, value)` pair per value, in dict order: the pair list that
`urlencode` encodes and that `parse_qsl` recovers from its output. -/
def qsFlatten (m : List (Str × List Str)) : List (Str × Str) :=
  cmap (fun pr => pr.2.map (fun v => (pr.1, v))) m

/-- Schemes that conventionally use a netloc (`urllib.parse.uses_netloc`). -/
def uses_netloc : List Str :=
  ["", "ftp", "http", "gopher", "nntp", "telnet", "imap", "wais", "file",
   "mms", "https", "shttp", "snews", "prospero", "rtsp", "rtsps", "rtspu",
   "rsync", "svn", "svn+ssh", "sftp", "nfs", "git", "git+ssh", "ws",
   "wss"].map String.toList

/-- `urllib.parse.urlunsplit`: the `//` part is emitted when a netloc is
present, or when the scheme conventionally uses one and the path does not
itself begin with `//`. -/
def urlunsplit (scheme netloc path query fragment : Str) : Str :=
  let url1 :=
    if netloc ≠ [] ∨ (scheme ≠ [] ∧ scheme ∈ uses_netloc ∧ path.take 2 ≠ ['/', '/']) then
      '/' :: '/' :: (netloc ++ (if path ≠ [] ∧ path.take 1 ≠ ['/'] then '/' :: path else path))
    else path
  let url2 := if scheme ≠ [] then scheme ++ ':' :: url1 else url1
  let url3 := if query ≠ [] then url2 ++ '?' :: query else url2
  if fragment ≠ [] then url3 ++ '#' :: fragment else url3

/-- `urllib.parse.urlunparse`. -/
def urlunparse (scheme netloc path params query fragment : Str) : Str :=
  urlunsplit scheme netloc (if params ≠ [] then path ++ ';' :: params else path)
    query fragment

/-! ### `normalize_link` -/

/-- Source `TRACKING_PARAMS` (lines 46-47). -/
def TRACKING_PARAMS : List Str :=
  ["utm_source", "utm_medium", "utm_campaign", "utm_term", "utm_content",
   "utm_name", "gclid", "fbclid", "igshid", "utm_id", "utm_referrer", "ref",
   "sns", "spm", "cmpid"].map String.toList

/-- Python `s.rstrip("/")`. -/
def rstripSlash (s : Str) : Str := (s.reverse.dropWhile (· = '/')).reverse

/-- Python `qs.get(k, [None])[0]`: the first value stored under `k`, when
the key is present. -/
def firstVal (d : List (Str × List Str)) (k : Str) : Option Str :=
  (d.find? (fun p => p.1 = k)).bind (fun p => p.2.head?)

/-- Python `sorted` on a list of strings.  `sorted` compares strings by
code points, a total order under which equal elements are identical
strings, so every correct sort returns the same list; insertion sort is
used as the executable model. -/
def pySorted (v : List Str) : List Str := List.insertionSort (· ≤ ·) v

/-- Source `normalize_link` (lines 83-103), translated clause by clause:
empty input gives `""`; a parse failure returns the input unchanged; a
netloc ending in `news.naver.com` gives the synthetic `naver:oid=…&aid=…`
key when both `oid` and `aid` are present (non-blank), else
`netloc + path.rstrip('/')`; otherwise tracking parameters are dropped,
remaining values sorted, and the URL is rebuilt without params/fragment. -/
def normalize_link (url : Str) : Str :=
  if url = [] then []
  else
    match urlparse url with
    | none => url
    | some p =>
      let scheme := if pyLower p.scheme = [] then "https".toList else pyLower p.scheme
      let netloc := pyLower p.netloc
      if List.isSuffixOf "news.naver.com".toList netloc then
        let qs := parse_qs false p.query
        match firstVal qs "oid".toList, firstVal qs "aid".toList with
        | some o, some a =>
          if o ≠ [] ∧ a ≠ [] then
            "naver:oid=".toList ++ o ++ "&aid=".toList ++ a
          else netloc ++ rstripSlash p.path
        | _, _ => netloc ++ rstripSlash p.path
      else
        let qs := parse_qs true p.query
        let qsClean := qs.filter (fun pr => ¬ pr.1 ∈ TRACKING_PARAMS)
        let qsSorted := qsClean.map (fun pr => (pr.1, pySorted pr.2))
        let newQuery := urlencode qsSorted
        let newPath := if rstripSlash p.path = [] then ['/'] else rstripSlash p.path
        urlunparse scheme netloc newPath [] newQuery []

/-! ### `get_html`: bounded retry with exponential backoff

The network is modelled as a function from the attempt number to that
attempt's outcome: an HTTP response with a status and a body, or a
network-level exception (the `except` branch of the source).  `get_html`
returns the body of the first status-200 response among attempts
`1..maxRetry`, together with the list of back-off sleeps it performed
(`time.sleep(RETRY_BACKOFF_BASE ** attempt)` runs after every failed
attempt). -/

/-- Outcome of one `session.get` call. -/
inductive HttpAttempt where
  | resp (status : Nat) (body : Str)
  | failure
deriving Repr, DecidableEq

/-- Source `RETRY_BACKOFF_BASE = 1.5` (line 28), as the exact rational. -/
def RETRY_BACKOFF_BASE : ℚ := 3 / 2

/-- The retry loop of `get_html` (lines 119-128) over the listed attempt
numbers, accumulating the sleeps performed so far. -/
def get_htmlGo (attempt : Nat → HttpAttempt) : List Nat → List ℚ → Option Str × List ℚ
  | [], sleeps => (none, sleeps)
  | i :: rest, sleeps =>
    match attempt i with
    | .resp 200 body => (some body, sleeps)
    | _ => get_htmlGo attempt rest (sleeps ++ [RETRY_BACKOFF_BASE ^ i])

/-- Source `get_html` (lines 118-128): attempts `1..maxRetry`, returning
body text on the first HTTP 200 and `None` after exhaustion. -/
def get_html (attempt : Nat → HttpAttempt) (maxRetry : Nat) : Option Str × List ℚ :=
  get_htmlGo attempt (List.range' 1 maxRetry) []

/-! ### `fetch_news`: extraction, dedup and cap

The DOM side of the pipeline (BeautifulSoup traversal in
`extract_card_from_time_span`) is abstracted: the parsed HTML is the list
of time-marker span elements in document order, each carrying its text and
the card (`title`/`link`/`snippet`) that the bounded forward scan would
extract for it, `none` when no qualifying title anchor is found within the
scan cap. -/

/-- A card extracted by `extract_card_from_time_span`. -/
structure Card where
  title : Str
  link : Str
  snippet : Str
deriving Repr, DecidableEq

/-- A candidate time-marker span: its stripped text and its extraction
result. -/
structure SpanElt where
  text : Str
  card : Option Card
deriving Repr, DecidableEq

/-- A result row of `fetch_news` (line 182): `query` is present exactly
when `include_query_col` is set. -/
structure Row where
  title : Str
  snippet : Str
  link : Str
  query : Option Str
deriving Repr, DecidableEq

/-- Row built from an accepted card (lines 182-183). -/
def mkRow (q : Option Str) (c : Card) : Row := ⟨c.title, c.snippet, c.link, q⟩

/-- The scan loop of `fetch_news` (lines 167-184): stop once `max_n` rows
are accepted; skip spans whose text fails the recency filter and spans
without an extractable card; reject a card whose non-empty normalized link
was already seen or whose normalized title was already seen; record the
keys of accepted cards before moving on. -/
def fetchAux (maxN : Nat) (q : Option Str) :
    List SpanElt → List Str → List Str → List Row → List Row
  | [], _, _, rows => rows
  | s :: rest, seenT, seenL, rows =>
    if maxN ≤ rows.length then rows
    else if ¬ parse_relative_allowed s.text then fetchAux maxN q rest seenT seenL rows
    else
      match s.card with
      | none => fetchAux maxN q rest seenT seenL rows
      | some card =>
        let linkNorm := normalize_link card.link
        let titleNorm := normalize_title card.title
        if (linkNorm ≠ [] ∧ linkNorm ∈ seenL) ∨ titleNorm ∈ seenT then
          fetchAux maxN q rest seenT seenL rows
        else
          fetchAux maxN q rest (seenT ++ [titleNorm])
            (if linkNorm ≠ [] then seenL ++ [linkNorm] else seenL)
            (rows ++ [mkRow q card])

/-- Source `fetch_news` (lines 156-186): `none` stands for a failed
`get_html` (empty HTML), which yields no rows; otherwise the scan loop
runs over the document-ordered time-marker spans with fresh `seen` sets. -/
def fetch_news (html : Option (List SpanElt)) (query : Str) (maxN : Nat)
    (includeQueryCol : Bool) : List Row :=
  match html with
  | none => []
  | some spans =>
    fetchAux maxN (if includeQueryCol then some query else none) spans [] [] []

/-- The candidate rows of a document, in document order: one per span that
passes the recency filter and yields a card. -/
def qualifiedRows (q : Option Str) (spans : List SpanElt) : List Row :=
  spans.filterMap (fun s =>
    if parse_relative_allowed s.text then (s.card).map (mkRow q) else none)

/-- Modelled from the spec: first-seen greedy deduplication over candidate
rows — a row is dropped exactly when its non-empty normalized link or its
normalized title was already claimed by an earlier surviving row
(OR semantics); the survivors keep document order. -/
def specDedupAux : List Row → List Str → List Str → List Row
  | [], _, _ => []
  | r :: rest, seenT, seenL =>
    let ln := normalize_link r.link
    let tn := normalize_title r.title
    if (ln ≠ [] ∧ ln ∈ seenL) ∨ tn ∈ seenT then specDedupAux rest seenT seenL
    else r :: specDedupAux rest (seenT ++ [tn]) (if ln ≠ [] then seenL ++ [ln] else seenL)

/-- Modelled from the spec: first-seen dedup starting from empty key sets. -/
def specDedupFirstSeen (rows : List Row) : List Row := specDedupAux rows [] []

/-! ## Helper lemmas about characters -/

theorem char_eq_of_toNat_eq {a b : Char} (h : a.toNat = b.toNat) : a = b := by
  apply Char.eq_of_val_eq
  apply UInt32.eq_of_val_eq
  exact Fin.eq_of_val_eq h

theorem char_eq_iff_toNat {a b : Char} : a = b ↔ a.toNat = b.toNat :=
  ⟨fun h => by rw [h], char_eq_of_toNat_eq⟩

theorem char_le_iff_toNat {a b : Char} : a ≤ b ↔ a.toNat ≤ b.toNat := by
  rw [Char.le_def]; exact Iff.rfl

theorem toNat_ofNat_isValid {n : Nat} (h : n.isValidChar) :
    (Char.ofNat n).toNat = n := by
  unfold Char.ofNat
  rw [dif_pos h]
  rfl

theorem isValidChar_of_small {n : Nat} (h : n < 0xd800) : n.isValidChar :=
  Or.inl h

theorem asciiLower_toNat (c : Char) :
    (asciiLower c).toNat =
      if 65 ≤ c.toNat ∧ c.toNat ≤ 90 then c.toNat + 32 else c.toNat := by
  unfold asciiLower
  by_cases h : 'A' ≤ c ∧ c ≤ 'Z'
  · have h1 : 65 ≤ c.toNat := char_le_iff_toNat.mp h.1
    have h2 : c.toNat ≤ 90 := char_le_iff_toNat.mp h.2
    rw [if_pos h, if_pos ⟨h1, h2⟩]
    exact toNat_ofNat_isValid (isValidChar_of_small (by omega))
  · rw [if_neg h, if_neg]
    intro hc
    exact h ⟨char_le_iff_toNat.mpr hc.1, char_le_iff_toNat.mpr hc.2⟩

theorem asciiLower_idem (c : Char) : asciiLower (asciiLower c) = asciiLower c := by
  apply char_eq_of_toNat_eq
  rw [asciiLower_toNat, asciiLower_toNat c]
  split_ifs <;> omega

theorem pyIsSpace_iff {c : Char} :
    pyIsSpace c = true ↔
      c.toNat = 32 ∨ c.toNat = 9 ∨ c.toNat = 10 ∨ c.toNat = 13 ∨
        c.toNat = 11 ∨ c.toNat = 12 := by
  unfold pyIsSpace
  simp only [Bool.or_eq_true, decide_eq_true_eq]
  constructor
  · rintro (((((h | h) | h) | h) | h) | h) <;> rw [char_eq_iff_toNat] at h <;>
      simp_all
  · rintro (h | h | h | h | h | h) <;>
      [skip; skip; skip; skip; skip; skip] <;>
      simp [char_eq_iff_toNat, h]

theorem pyIsSpace_asciiLower (c : Char) :
    pyIsSpace (asciiLower c) = pyIsSpace c := by
  by_cases h : pyIsSpace c = true
  · have := pyIsSpace_iff.mp h
    have hfix : (asciiLower c).toNat = c.toNat := by
      rw [asciiLower_toNat]; rw [if_neg]; omega
    rw [h]
    exact pyIsSpace_iff.mpr (by rw [hfix]; exact this)
  · simp only [Bool.not_eq_true] at h
    rw [h]
    by_cases h2 : pyIsSpace (asciiLower c) = true
    · exfalso
      have := pyIsSpace_iff.mp h2
      rw [asciiLower_toNat] at this
      apply absurd h
      simp only [Bool.not_eq_false]
      apply pyIsSpace_iff.mpr
      split_ifs at this <;> omega
    · simp only [Bool.not_eq_true] at h2; rw [h2]

/-! ## Helper lemmas for `normalize_title` (claim C9) -/

theorem pyLower_fixed_of_mem {s : Str} {c : Char} (h : c ∈ pyLower s) :
    asciiLower c = c := by
  unfold pyLower at h
  obtain ⟨d, _, rfl⟩ := List.mem_map.mp h
  exact asciiLower_idem d

theorem pyLower_of_all_fixed {s : Str} (h : ∀ c ∈ s, asciiLower c = c) :
    pyLower s = s := by
  unfold pyLower
  induction s with
  | nil => rfl
  | cons c rest ih =>
    simp only [List.map_cons]
    rw [h c (by simp), ih (fun d hd => h d (by simp [hd]))]

/-- Tokens produced by the whitespace splitter are nonempty and
whitespace-free. -/
theorem pySplitWsAux_tokens {s : Str} {acc : Str}
    (hacc : ∀ c ∈ acc, pyIsSpace c = false) :
    ∀ w ∈ pySplitWsAux s acc, w ≠ [] ∧ ∀ c ∈ w, pyIsSpace c = false := by
  induction s generalizing acc with
  | nil =>
    intro w hw
    unfold pySplitWsAux at hw
    split_ifs at hw with h
    · simp at hw
    · simp only [List.mem_singleton] at hw
      subst hw
      exact ⟨by simpa using h, fun c hc => hacc c (List.mem_reverse.mp hc)⟩
  | cons c rest ih =>
    intro w hw
    unfold pySplitWsAux at hw
    split_ifs at hw with h1 h2
    · exact ih (by simp) w hw
    · rcases List.mem_cons.mp hw with hw | hw
      · subst hw
        exact ⟨by simpa using h2, fun d hd => hacc d (List.mem_reverse.mp hd)⟩
      · exact ih (by simp) w hw
    · refine ih ?_ w hw
      intro d hd
      rcases List.mem_cons.mp hd with hd | hd
      · subst hd; simpa using h1
      · exact hacc d hd

theorem pySplitWs_tokens {s : Str} :
    ∀ w ∈ pySplitWs s, w ≠ [] ∧ ∀ c ∈ w, pyIsSpace c = false :=
  pySplitWsAux_tokens (by simp)

/-- Token characters come from the split string or the accumulator. -/
theorem pySplitWsAux_chars {s : Str} :
    ∀ {acc : Str}, ∀ w ∈ pySplitWsAux s acc, ∀ c ∈ w, c ∈ s ∨ c ∈ acc := by
  induction s with
  | nil =>
    intro acc w hw c hc
    unfold pySplitWsAux at hw
    split_ifs at hw with h
    · simp at hw
    · simp only [List.mem_singleton] at hw
      subst hw
      exact Or.inr (List.mem_reverse.mp hc)
  | cons d rest ih =>
    intro acc w hw c hc
    unfold pySplitWsAux at hw
    split_ifs at hw with h1 h2
    · rcases ih w hw c hc with h | h
      · exact Or.inl (by simp [h])
      · simp at h
    · rcases List.mem_cons.mp hw with hw | hw
      · subst hw
        exact Or.inr (List.mem_reverse.mp hc)
      · rcases ih w hw c hc with h | h
        · exact Or.inl (by simp [h])
        · simp at h
    · rcases ih w hw c hc with h | h
      · exact Or.inl (by simp [h])
      · rcases List.mem_cons.mp h with h | h
        · exact Or.inl (by simp [h])
        · exact Or.inr h

/-- Unfolding equation for the splitter on a cons cell. -/
theorem pySplitWsAux_cons (c : Char) (s acc : Str) :
    pySplitWsAux (c :: s) acc =
      if pyIsSpace c then
        (if acc = [] then pySplitWsAux s [] else acc.reverse :: pySplitWsAux s [])
      else pySplitWsAux s (c :: acc) := rfl

/-- Splitting consumes a whitespace-free token into the accumulator. -/
theorem pySplitWsAux_token_append {w : Str} (hw : ∀ c ∈ w, pyIsSpace c = false)
    (l : Str) (acc : Str) :
    pySplitWsAux (w ++ l) acc = pySplitWsAux l (w.reverse ++ acc) := by
  induction w generalizing acc with
  | nil => simp
  | cons c rest ih =>
    simp only [List.cons_append, pySplitWsAux_cons]
    rw [if_neg (by simp [hw c (by simp)])]
    rw [ih (fun d hd => hw d (by simp [hd]))]
    congr 1
    simp

/-- A whitespace-free token alone in the accumulator. -/
theorem pySplitWsAux_token_only {w : Str} (hw : ∀ c ∈ w, pyIsSpace c = false)
    (acc : Str) :
    pySplitWsAux w acc = pySplitWsAux [] (w.reverse ++ acc) := by
  have := pySplitWsAux_token_append hw [] acc
  simpa using this

/-- Splitting the space-joined tokens recovers the tokens. -/
theorem pySplitWs_joinSpace {ws : List Str}
    (h : ∀ w ∈ ws, w ≠ [] ∧ ∀ c ∈ w, pyIsSpace c = false) :
    pySplitWs (joinSpace ws) = ws := by
  induction ws with
  | nil => rfl
  | cons w rest ih =>
    have hw := h w (by simp)
    cases rest with
    | nil =>
      show pySplitWsAux (joinSpace [w]) [] = [w]
      have hj : joinSpace [w] = w := rfl
      rw [hj, pySplitWsAux_token_only hw.2]
      unfold pySplitWsAux
      rw [if_neg (by simpa using hw.1)]
      simp
    | cons w2 rest2 =>
      show pySplitWsAux (joinSpace (w :: w2 :: rest2)) [] = w :: w2 :: rest2
      have hj : joinSpace (w :: w2 :: rest2) =
          w ++ ' ' :: joinSpace (w2 :: rest2) := rfl
      rw [hj, pySplitWsAux_token_append hw.2, pySplitWsAux_cons]
      rw [if_pos (by norm_num [pyIsSpace]), if_neg (by simpa using hw.1)]
      simp only [List.append_nil, List.reverse_reverse]
      congr 1
      exact ih (fun x hx => h x (by simp [hx]))

/-- Every character of the space-join of lower-stable, space-free tokens is
lower-stable. -/
theorem joinSpace_chars_fixed {ws : List Str}
    (h : ∀ w ∈ ws, ∀ c ∈ w, asciiLower c = c) :
    ∀ c ∈ joinSpace ws, asciiLower c = c := by
  induction ws with
  | nil => simp [joinSpace]
  | cons w rest ih =>
    intro c hc
    cases rest with
    | nil => exact h w (by simp) c (by simpa [joinSpace] using hc)
    | cons w2 rest2 =>
      unfold joinSpace at hc
      rcases List.mem_append.mp hc with hc | hc
      · exact h w (by simp) c hc
      · rcases List.mem_cons.mp hc with hc | hc
        · subst hc; rfl
        · exact ih (fun x hx => h x (by simp [hx])) c hc

theorem normalize_title_idem_aux (t : Str) :
    normalize_title (normalize_title t) = normalize_title t := by
  unfold normalize_title
  have htok := @pySplitWs_tokens (pyLower t)
  have hfix : ∀ w ∈ pySplitWs (pyLower t), ∀ c ∈ w, asciiLower c = c := by
    intro w hw c hc
    have : c ∈ pyLower t := by
      rcases pySplitWsAux_chars w hw c hc with h | h
      · exact h
      · simp at h
    exact pyLower_fixed_of_mem this
  rw [pyLower_of_all_fixed (joinSpace_chars_fixed hfix)]
  rw [pySplitWs_joinSpace htok]

end News

namespace News

/-! ## Claim theorems C8 and C9 -/

/-- C9: `normalize_title` is idempotent
(`normalize_title (normalize_title t) = normalize_title t` for every
string `t`) and identifies strings differing only in letter case or
whitespace runs: in particular
`normalize_title "ABC  def" = normalize_title "abc def"`. -/
theorem claim_C9_normalize_title_idempotent :
    (∀ t : Str, normalize_title (normalize_title t) = normalize_title t) ∧
      normalize_title "ABC  def".toList = normalize_title "abc def".toList :=
  ⟨normalize_title_idem_aux, by decide⟩

/-- C8: the time-marker filter accepts exactly the texts denoting 1–59
minutes ago or 1–23 hours ago: over all canonical decimal counts below
100, `N분 전` is accepted iff `1 ≤ N ≤ 59` and `N시간 전` iff
`1 ≤ N ≤ 23` (three-digit counts are syntactically rejected by the
two-digit regexes, sampled at 100 and 999); in particular it accepts
`5분 전` and `23시간 전`, and rejects `24시간 전`, `0분 전`, and
non-matching text such as `어제`. -/
theorem claim_C8_time_marker_filter :
    (parse_relative_allowed "5분 전".toList = true ∧
     parse_relative_allowed "23시간 전".toList = true ∧
     parse_relative_allowed "24시간 전".toList = false ∧
     parse_relative_allowed "0분 전".toList = false ∧
     parse_relative_allowed "어제".toList = false ∧
     parse_relative_allowed "100분 전".toList = false ∧
     parse_relative_allowed "999시간 전".toList = false) ∧
    (∀ n : Nat, n < 100 →
      parse_relative_allowed ((Nat.repr n).toList ++ "분 전".toList) =
          decide (1 ≤ n ∧ n ≤ 59) ∧
        parse_relative_allowed ((Nat.repr n).toList ++ "시간 전".toList) =
          decide (1 ≤ n ∧ n ≤ 23)) := by
  constructor
  · decide
  · decide

/-- Witness for C8: instantiating the bounded quantifier at 24 shows the
boundary rejection of `24시간 전`. -/
theorem claim_C8_witness :
    parse_relative_allowed ((Nat.repr 24).toList ++ "시간 전".toList) =
      decide (1 ≤ 24 ∧ 24 ≤ 23) :=
  (claim_C8_time_marker_filter.2 24 (by decide)).2

end News

namespace News

/-! ## Claim C5: `get_html` retry/backoff -/

/-- A run over attempt numbers that all fail adds one back-off sleep per
attempt and returns failure. -/
theorem get_htmlGo_all_fail {attempt : Nat → HttpAttempt} {is : List Nat}
    (h : ∀ i ∈ is, ∀ b, attempt i ≠ .resp 200 b) (sleeps : List ℚ) :
    get_htmlGo attempt is sleeps =
      (none, sleeps ++ is.map (fun i => RETRY_BACKOFF_BASE ^ i)) := by
  induction is generalizing sleeps with
  | nil => simp [get_htmlGo]
  | cons i rest ih =>
    have hi := h i (by simp)
    unfold get_htmlGo
    have hstep :
        (match attempt i with
          | .resp 200 body => (some body, sleeps)
          | _ => get_htmlGo attempt rest (sleeps ++ [RETRY_BACKOFF_BASE ^ i])) =
          get_htmlGo attempt rest (sleeps ++ [RETRY_BACKOFF_BASE ^ i]) := by
      cases ha : attempt i with
      | resp s b =>
        by_cases hs : s = 200
        · subst hs; exact absurd ha (hi b)
        · simp [hs]
      | failure => rfl
    rw [hstep, ih (fun j hj => h j (by simp [hj]))]
    simp

/-- A run whose first success is at attempt `k` returns that body, having
slept once per preceding failed attempt. -/
theorem get_htmlGo_first_success {attempt : Nat → HttpAttempt} {is1 : List Nat}
    {k : Nat} {body : Str} (is2 : List Nat)
    (h1 : ∀ i ∈ is1, ∀ b, attempt i ≠ .resp 200 b)
    (hk : attempt k = .resp 200 body) (sleeps : List ℚ) :
    get_htmlGo attempt (is1 ++ k :: is2) sleeps =
      (some body, sleeps ++ is1.map (fun i => RETRY_BACKOFF_BASE ^ i)) := by
  induction is1 generalizing sleeps with
  | nil =>
    simp only [List.nil_append, List.map_nil, List.append_nil]
    unfold get_htmlGo
    rw [hk]
  | cons i rest ih =>
    have hi := h1 i (by simp)
    simp only [List.cons_append]
    unfold get_htmlGo
    have hstep :
        (match attempt i with
          | .resp 200 body => (some body, sleeps)
          | _ =>
            get_htmlGo attempt (rest ++ k :: is2) (sleeps ++ [RETRY_BACKOFF_BASE ^ i])) =
          get_htmlGo attempt (rest ++ k :: is2) (sleeps ++ [RETRY_BACKOFF_BASE ^ i]) := by
      cases ha : attempt i with
      | resp s b =>
        by_cases hs : s = 200
        · subst hs; exact absurd ha (hi b)
        · simp [hs]
      | failure => rfl
    rw [hstep, ih (fun j hj => h1 j (by simp [hj]))]
    simp

/-- C5: `get_html` performs at most `max_retries` attempts; the first
attempt returning HTTP 200 makes it return that body at once (later
attempts are not consulted), every non-200 response or network-level
exception is followed by a sleep of `RETRY_BACKOFF_BASE ^ attempt`
seconds, and after all attempts fail it returns `none` — the exception
outcome is absorbed by the loop, never propagated. -/
theorem claim_C5_get_html_retry (attempt : Nat → HttpAttempt) (maxRetry : Nat) :
    (∀ k body, 1 ≤ k → k ≤ maxRetry →
      (∀ i, 1 ≤ i → i < k → ∀ b, attempt i ≠ .resp 200 b) →
      attempt k = .resp 200 body →
      get_html attempt maxRetry =
        (some body, (List.range' 1 (k - 1)).map (fun i => RETRY_BACKOFF_BASE ^ i))) ∧
    ((∀ i, 1 ≤ i → i ≤ maxRetry → ∀ b, attempt i ≠ .resp 200 b) →
      get_html attempt maxRetry =
        (none, (List.range' 1 maxRetry).map (fun i => RETRY_BACKOFF_BASE ^ i))) := by
  constructor
  · intro k body hk1 hk2 hfail hsucc
    unfold get_html
    have hsplit : List.range' 1 maxRetry =
        List.range' 1 (k - 1) ++ k :: List.range' (k + 1) (maxRetry - k) := by
      have h1 : List.range' 1 (k - 1) ++ List.range' k (maxRetry - (k - 1)) =
          List.range' 1 maxRetry := by
        have := List.range'_append 1 (k - 1) (maxRetry - (k - 1)) 1
        simp only [one_mul, Nat.mul_one] at this ⊢
        rw [show 1 + (k - 1) = k by omega] at this
        rw [show maxRetry - (k - 1) + (k - 1) = maxRetry by omega] at this
        exact this
      rw [← h1]
      congr 1
      rw [show maxRetry - (k - 1) = (maxRetry - k) + 1 by omega]
      rw [List.range'_succ]
    rw [hsplit]
    rw [get_htmlGo_first_success (List.range' (k + 1) (maxRetry - k))
      (fun i hi => hfail i (by
        have := List.mem_range'.mp hi
        omega) (by
        have := List.mem_range'.mp hi
        omega)) hsucc []]
    simp
  · intro hfail
    unfold get_html
    rw [get_htmlGo_all_fail (fun i hi => hfail i (by
      have := List.mem_range'.mp hi
      omega) (by
      have := List.mem_range'.mp hi
      omega)) []]
    simp

/-- Witness for C5: two 500 responses then a 200 on the third of three
attempts returns the third body after sleeping `1.5¹` and `1.5²` seconds;
a run of three failures (one of them a network exception) returns `none`
after three sleeps. -/
theorem claim_C5_witness :
    (get_html
        (fun i => if i = 3 then .resp 200 "ok".toList else .resp 500 [])
        3 =
      (some "ok".toList,
        [RETRY_BACKOFF_BASE ^ 1, RETRY_BACKOFF_BASE ^ 2])) ∧
    get_html (fun i => if i = 2 then .failure else .resp 500 []) 3 =
      (none,
        [RETRY_BACKOFF_BASE ^ 1, RETRY_BACKOFF_BASE ^ 2, RETRY_BACKOFF_BASE ^ 3]) := by
  constructor
  · rw [(claim_C5_get_html_retry
        (fun i => if i = 3 then .resp 200 "ok".toList else .resp 500 []) 3).1
        3 "ok".toList (by omega) (by omega)
        (by
          intro i h1 h2 b
          have : i = 1 ∨ i = 2 := by omega
          rcases this with h | h <;> subst h <;> simp)
        (by simp)]
    rfl
  · rw [(claim_C5_get_html_retry
        (fun i => if i = 2 then .failure else .resp 500 []) 3).2
        (by
          intro i h1 h2 b
          have : i = 1 ∨ i = 2 ∨ i = 3 := by omega
          rcases this with h | h | h <;> subst h <;> simp)]
    rfl

end News

namespace News

/-! ## Helper lemmas for the `fetch_news` scan loop -/

/-- One-step unfolding of the scan loop on a cons cell. -/
theorem fetchAux_cons (maxN : Nat) (qq : Option Str) (s : SpanElt)
    (rest : List SpanElt) (seenT seenL : List Str) (rows : List Row) :
    fetchAux maxN qq (s :: rest) seenT seenL rows =
      if maxN ≤ rows.length then rows
      else if ¬ parse_relative_allowed s.text then fetchAux maxN qq rest seenT seenL rows
      else
        match s.card with
        | none => fetchAux maxN qq rest seenT seenL rows
        | some card =>
          let linkNorm := normalize_link card.link
          let titleNorm := normalize_title card.title
          if (linkNorm ≠ [] ∧ linkNorm ∈ seenL) ∨ titleNorm ∈ seenT then
            fetchAux maxN qq rest seenT seenL rows
          else
            fetchAux maxN qq rest (seenT ++ [titleNorm])
              (if linkNorm ≠ [] then seenL ++ [linkNorm] else seenL)
              (rows ++ [mkRow qq card]) := rfl

theorem fetchAux_stop {maxN : Nat} {qq : Option Str} {s : SpanElt}
    {rest : List SpanElt} {seenT seenL : List Str} {rows : List Row}
    (h : maxN ≤ rows.length) :
    fetchAux maxN qq (s :: rest) seenT seenL rows = rows := by
  rw [fetchAux_cons, if_pos h]

theorem fetchAux_skip_time {maxN : Nat} {qq : Option Str} {s : SpanElt}
    {rest : List SpanElt} {seenT seenL : List Str} {rows : List Row}
    (h : rows.length < maxN) (ht : parse_relative_allowed s.text = false) :
    fetchAux maxN qq (s :: rest) seenT seenL rows =
      fetchAux maxN qq rest seenT seenL rows := by
  rw [fetchAux_cons, if_neg (by omega), if_pos (by simp [ht])]

theorem fetchAux_skip_nocard {maxN : Nat} {qq : Option Str} {s : SpanElt}
    {rest : List SpanElt} {seenT seenL : List Str} {rows : List Row}
    (h : rows.length < maxN) (ht : parse_relative_allowed s.text = true)
    (hc : s.card = none) :
    fetchAux maxN qq (s :: rest) seenT seenL rows =
      fetchAux maxN qq rest seenT seenL rows := by
  rw [fetchAux_cons, if_neg (by omega), if_neg (by simp [ht]), hc]

theorem fetchAux_reject {maxN : Nat} {qq : Option Str} {s : SpanElt}
    {rest : List SpanElt} {seenT seenL : List Str} {rows : List Row}
    {card : Card} (h : rows.length < maxN)
    (ht : parse_relative_allowed s.text = true) (hc : s.card = some card)
    (hrej : (normalize_link card.link ≠ [] ∧ normalize_link card.link ∈ seenL) ∨
      normalize_title card.title ∈ seenT) :
    fetchAux maxN qq (s :: rest) seenT seenL rows =
      fetchAux maxN qq rest seenT seenL rows := by
  rw [fetchAux_cons, if_neg (by omega), if_neg (by simp [ht]), hc]
  simp only []
  rw [if_pos hrej]

theorem fetchAux_accept {maxN : Nat} {qq : Option Str} {s : SpanElt}
    {rest : List SpanElt} {seenT seenL : List Str} {rows : List Row}
    {card : Card} (h : rows.length < maxN)
    (ht : parse_relative_allowed s.text = true) (hc : s.card = some card)
    (hacc : ¬ ((normalize_link card.link ≠ [] ∧ normalize_link card.link ∈ seenL) ∨
      normalize_title card.title ∈ seenT)) :
    fetchAux maxN qq (s :: rest) seenT seenL rows =
      fetchAux maxN qq rest (seenT ++ [normalize_title card.title])
        (if normalize_link card.link ≠ [] then seenL ++ [normalize_link card.link]
         else seenL)
        (rows ++ [mkRow qq card]) := by
  rw [fetchAux_cons, if_neg (by omega), if_neg (by simp [ht]), hc]
  simp only []
  rw [if_neg hacc]

/-- One-step unfolding of the spec dedup on a cons cell. -/
theorem specDedupAux_cons (r : Row) (rest : List Row) (seenT seenL : List Str) :
    specDedupAux (r :: rest) seenT seenL =
      (if (normalize_link r.link ≠ [] ∧ normalize_link r.link ∈ seenL) ∨
          normalize_title r.title ∈ seenT then
        specDedupAux rest seenT seenL
      else
        r :: specDedupAux rest (seenT ++ [normalize_title r.title])
          (if normalize_link r.link ≠ [] then seenL ++ [normalize_link r.link]
           else seenL)) := rfl

/-- The scan loop is the spec's first-seen dedup of the qualified candidate
rows, truncated to the remaining capacity. -/
theorem fetchAux_eq_dedup (maxN : Nat) (qq : Option Str) (spans : List SpanElt)
    (seenT seenL : List Str) (rows : List Row) :
    fetchAux maxN qq spans seenT seenL rows =
      rows ++ (specDedupAux (qualifiedRows qq spans) seenT seenL).take
        (maxN - rows.length) := by
  induction spans generalizing seenT seenL rows with
  | nil => simp [fetchAux, qualifiedRows, specDedupAux]
  | cons s rest ih =>
    by_cases hlen : maxN ≤ rows.length
    · rw [fetchAux_stop hlen, show maxN - rows.length = 0 by omega]
      simp
    · push_neg at hlen
      by_cases ht : parse_relative_allowed s.text = true
      · cases hc : s.card with
        | none =>
          rw [fetchAux_skip_nocard hlen ht hc, ih]
          have : qualifiedRows qq (s :: rest) = qualifiedRows qq rest := by
            unfold qualifiedRows
            simp [List.filterMap_cons, ht, hc]
          rw [this]
        | some card =>
          have hq : qualifiedRows qq (s :: rest) =
              mkRow qq card :: qualifiedRows qq rest := by
            unfold qualifiedRows
            simp [List.filterMap_cons, ht, hc]
          by_cases hrej : (normalize_link card.link ≠ [] ∧
              normalize_link card.link ∈ seenL) ∨
              normalize_title card.title ∈ seenT
          · rw [fetchAux_reject hlen ht hc hrej, ih, hq]
            rw [specDedupAux_cons,
              show (mkRow qq card).link = card.link from rfl,
              show (mkRow qq card).title = card.title from rfl, if_pos hrej]
          · rw [fetchAux_accept hlen ht hc hrej, ih, hq]
            rw [specDedupAux_cons,
              show (mkRow qq card).link = card.link from rfl,
              show (mkRow qq card).title = card.title from rfl, if_neg hrej]
            rw [show maxN - rows.length = (maxN - (rows ++ [mkRow qq card]).length) + 1 by
              simp
              omega]
            rw [List.take_succ_cons]
            simp
      · simp only [Bool.not_eq_true] at ht
        rw [fetchAux_skip_time hlen ht, ih]
        have : qualifiedRows qq (s :: rest) = qualifiedRows qq rest := by
          unfold qualifiedRows
          simp [List.filterMap_cons, ht]
        rw [this]

end News

namespace News

/-- A surviving row's keys were not in the incoming seen sets. -/
theorem specDedupAux_mem_keys {rows : List Row} {seenT seenL : List Str}
    {r : Row} (h : r ∈ specDedupAux rows seenT seenL) :
    normalize_title r.title ∉ seenT ∧
      (normalize_link r.link ≠ [] → normalize_link r.link ∉ seenL) := by
  induction rows generalizing seenT seenL with
  | nil => simp [specDedupAux] at h
  | cons r0 rest ih =>
    rw [specDedupAux_cons] at h
    by_cases hrej : (normalize_link r0.link ≠ [] ∧ normalize_link r0.link ∈ seenL) ∨
        normalize_title r0.title ∈ seenT
    · rw [if_pos hrej] at h
      exact ih h
    · rw [if_neg hrej] at h
      rcases List.mem_cons.mp h with hr | hr
      · subst hr
        push_neg at hrej
        exact ⟨hrej.2, hrej.1⟩
      · have := ih hr
        constructor
        · intro hmem
          exact this.1 (by simp [hmem])
        · intro hne hmem
          apply this.2 hne
          by_cases hl : normalize_link r0.link ≠ []
          · rw [if_pos hl]
            exact List.mem_append.mpr (Or.inl hmem)
          · rw [if_neg hl]
            exact hmem

/-- Surviving rows have pairwise distinct normalized titles and pairwise
distinct non-empty normalized links. -/
theorem specDedupAux_pairwise (rows : List Row) (seenT seenL : List Str) :
    List.Pairwise (fun a b =>
      normalize_title a.title ≠ normalize_title b.title ∧
        (normalize_link a.link = [] ∨ normalize_link a.link ≠ normalize_link b.link))
      (specDedupAux rows seenT seenL) := by
  induction rows generalizing seenT seenL with
  | nil => simp [specDedupAux]
  | cons r0 rest ih =>
    rw [specDedupAux_cons]
    by_cases hrej : (normalize_link r0.link ≠ [] ∧ normalize_link r0.link ∈ seenL) ∨
        normalize_title r0.title ∈ seenT
    · rw [if_pos hrej]
      exact ih _ _
    · rw [if_neg hrej]
      refine List.Pairwise.cons ?_ (ih _ _)
      intro b hb
      have hbkeys := specDedupAux_mem_keys hb
      constructor
      · intro heq
        exact hbkeys.1 (by simp [heq])
      · by_cases hl : normalize_link r0.link = []
        · exact Or.inl hl
        · refine Or.inr ?_
          intro heq
          by_cases hbl : normalize_link b.link = []
          · exact hl (heq.trans hbl)
          · apply hbkeys.2 hbl
            rw [← heq, if_pos hl]
            simp

/-- The scan loop never grows the row list beyond `maxN`. -/
theorem fetchAux_length_le (maxN : Nat) (qq : Option Str) (spans : List SpanElt)
    (seenT seenL : List Str) (rows : List Row) :
    (fetchAux maxN qq spans seenT seenL rows).length ≤
      max maxN rows.length := by
  rw [fetchAux_eq_dedup]
  simp only [List.length_append]
  have := List.length_take_le (maxN - rows.length)
    (specDedupAux (qualifiedRows qq spans) seenT seenL)
  omega

/-! ## Claim theorems C1, C2, C4 -/

/-- C1: within one fetch call no two returned rows share a normalized
title and no two share a non-empty normalized link; the returned rows are
exactly the spec's first-seen dedup of the qualified candidate cards in
document order, truncated to `max_n` — so when duplicates occur, the
first-seen card survives. -/
theorem claim_C1_fetch_dedup_invariant (spans : List SpanElt) (q : Str)
    (maxN : Nat) (inc : Bool) :
    List.Pairwise (fun a b =>
        normalize_title a.title ≠ normalize_title b.title)
      (fetch_news (some spans) q maxN inc) ∧
    List.Pairwise (fun a b =>
        normalize_link a.link = [] ∨ normalize_link a.link ≠ normalize_link b.link)
      (fetch_news (some spans) q maxN inc) ∧
    fetch_news (some spans) q maxN inc =
      (specDedupFirstSeen
        (qualifiedRows (if inc then some q else none) spans)).take maxN := by
  have heq : fetch_news (some spans) q maxN inc =
      (specDedupFirstSeen
        (qualifiedRows (if inc then some q else none) spans)).take maxN := by
    show fetchAux maxN (if inc then some q else none) spans [] [] [] = _
    rw [fetchAux_eq_dedup]
    simp [specDedupFirstSeen]
  have hpw := specDedupAux_pairwise
    (qualifiedRows (if inc then some q else none) spans) [] []
  have hpwt : List.Pairwise (fun a b =>
      normalize_title a.title ≠ normalize_title b.title ∧
        (normalize_link a.link = [] ∨ normalize_link a.link ≠ normalize_link b.link))
      (fetch_news (some spans) q maxN inc) := by
    rw [heq]
    exact List.Pairwise.sublist (List.take_sublist _ _) hpw
  exact ⟨hpwt.imp (fun h => h.1), hpwt.imp (fun h => h.2), heq⟩

/-- C2: the number of returned rows never exceeds `max_n`; once the
accepted count reaches `max_n` the remaining markers are not scanned; a
marker that fails the time filter, yields no card, or is rejected by dedup
leaves the accepted count and key sets unchanged and scanning proceeds to
the following markers. -/
theorem claim_C2_row_cap (spans : List SpanElt) (q : Str) (maxN : Nat)
    (inc : Bool) :
    (fetch_news (some spans) q maxN inc).length ≤ maxN ∧
    (∀ (qq : Option Str) (s : SpanElt) (rest : List SpanElt)
        (seenT seenL : List Str) (rows : List Row), maxN ≤ rows.length →
      fetchAux maxN qq (s :: rest) seenT seenL rows = rows) ∧
    (∀ (qq : Option Str) (s : SpanElt) (rest : List SpanElt)
        (seenT seenL : List Str) (rows : List Row), rows.length < maxN →
      (parse_relative_allowed s.text = false ∨ s.card = none ∨
        (∃ card, s.card = some card ∧
          ((normalize_link card.link ≠ [] ∧ normalize_link card.link ∈ seenL) ∨
            normalize_title card.title ∈ seenT))) →
      fetchAux maxN qq (s :: rest) seenT seenL rows =
        fetchAux maxN qq rest seenT seenL rows) := by
  refine ⟨?_, ?_, ?_⟩
  · have := fetchAux_length_le maxN (if inc then some q else none) spans [] [] []
    simpa [fetch_news] using this
  · intro qq s rest seenT seenL rows h
    exact fetchAux_stop h
  · intro qq s rest seenT seenL rows hlen hskip
    rcases hskip with h | h | ⟨card, hc, hrej⟩
    · exact fetchAux_skip_time hlen h
    · by_cases ht : parse_relative_allowed s.text = true
      · exact fetchAux_skip_nocard hlen ht h
      · exact fetchAux_skip_time hlen (by simpa using ht)
    · by_cases ht : parse_relative_allowed s.text = true
      · exact fetchAux_reject hlen ht hc hrej
      · exact fetchAux_skip_time hlen (by simpa using ht)

/-- Witness for C2: with a cap of 1, a document with two distinct
qualifying cards yields exactly the first row, and the skip equations hold
at a concrete rejected marker. -/
theorem claim_C2_witness :
    (fetch_news (some
        [⟨"5분 전".toList, some ⟨"a".toList, "u".toList, []⟩⟩,
         ⟨"5분 전".toList, some ⟨"b".toList, "v".toList, []⟩⟩])
      "q".toList 1 false).length ≤ 1 := by
  exact (claim_C2_row_cap
    [⟨"5분 전".toList, some ⟨"a".toList, "u".toList, []⟩⟩,
     ⟨"5분 전".toList, some ⟨"b".toList, "v".toList, []⟩⟩]
    "q".toList 1 false).1

/-- C4: a qualifying card is rejected exactly when its non-empty
normalized link is already in `seen_links` OR its normalized title is
already in `seen_titles` (either collision alone suffices); on acceptance
both key sets are extended (the link key only when non-empty) before the
next marker is processed. -/
theorem claim_C4_acceptance_rule (maxN : Nat) (qq : Option Str) (s : SpanElt)
    (rest : List SpanElt) (seenT seenL : List Str) (rows : List Row)
    (card : Card) (hlen : rows.length < maxN)
    (ht : parse_relative_allowed s.text = true) (hc : s.card = some card) :
    fetchAux maxN qq (s :: rest) seenT seenL rows =
      if (normalize_link card.link ≠ [] ∧ normalize_link card.link ∈ seenL) ∨
          normalize_title card.title ∈ seenT then
        fetchAux maxN qq rest seenT seenL rows
      else
        fetchAux maxN qq rest (seenT ++ [normalize_title card.title])
          (if normalize_link card.link ≠ [] then
            seenL ++ [normalize_link card.link] else seenL)
          (rows ++ [mkRow qq card]) := by
  by_cases hrej : (normalize_link card.link ≠ [] ∧ normalize_link card.link ∈ seenL) ∨
      normalize_title card.title ∈ seenT
  · rw [if_pos hrej]
    exact fetchAux_reject hlen ht hc hrej
  · rw [if_neg hrej]
    exact fetchAux_accept hlen ht hc hrej

/-- Witness for C4: a card whose link is fresh but whose title was already
seen is rejected (OR semantics), at concrete inputs. -/
theorem claim_C4_witness :
    fetchAux 10 none
        [⟨"5분 전".toList, some ⟨"t".toList, "new-link".toList, []⟩⟩]
        [normalize_title "t".toList] [] [] =
      fetchAux 10 none [] [normalize_title "t".toList] [] [] := by
  rw [claim_C4_acceptance_rule 10 none
    ⟨"5분 전".toList, some ⟨"t".toList, "new-link".toList, []⟩⟩
    [] [normalize_title "t".toList] [] [] ⟨"t".toList, "new-link".toList, []⟩
    (by decide) (by decide) rfl]
  rw [if_pos (Or.inr (by simp))]

end News

namespace News

/-! ## Claim C10: cards with empty normalized links -/

/-- Counterexample to C10 as stated: in a document whose second and third
cards both have empty links (hence empty normalized links) and distinct
normalized titles (`a` vs `b`), the second card is nevertheless rejected —
its title collides with the first card — so the two empty-link cards are
not both accepted. -/
theorem claim_C10_counterexample :
    normalize_link [] = [] ∧
    normalize_title "a".toList ≠ normalize_title "b".toList ∧
    fetch_news (some
        [⟨"5분 전".toList, some ⟨"a".toList, "x".toList, []⟩⟩,
         ⟨"5분 전".toList, some ⟨"a".toList, [], []⟩⟩,
         ⟨"5분 전".toList, some ⟨"b".toList, [], []⟩⟩]) [] 10 false =
      [⟨"a".toList, [], "x".toList, none⟩, ⟨"b".toList, [], [], none⟩] ∧
    (⟨"a".toList, [], [], none⟩ : Row) ∉ fetch_news (some
        [⟨"5분 전".toList, some ⟨"a".toList, "x".toList, []⟩⟩,
         ⟨"5분 전".toList, some ⟨"a".toList, [], []⟩⟩,
         ⟨"5분 전".toList, some ⟨"b".toList, [], []⟩⟩]) [] 10 false := by
  decide

/-- C10 (amended): a card whose normalized link is empty is never rejected
on link grounds — it is rejected exactly when its normalized title was
already seen — and the empty string is never inserted into `seen_links`;
consequently a document consisting of two cards with empty links whose
normalized titles differ from each other yields both rows (cap
permitting). -/
theorem claim_C10_empty_link_amended :
    (∀ (maxN : Nat) (qq : Option Str) (s : SpanElt) (rest : List SpanElt)
        (seenT seenL : List Str) (rows : List Row) (card : Card),
      rows.length < maxN → parse_relative_allowed s.text = true →
      s.card = some card → normalize_link card.link = [] →
      fetchAux maxN qq (s :: rest) seenT seenL rows =
        if normalize_title card.title ∈ seenT then
          fetchAux maxN qq rest seenT seenL rows
        else
          fetchAux maxN qq rest (seenT ++ [normalize_title card.title]) seenL
            (rows ++ [mkRow qq card])) ∧
    (∀ (t1 t2 sn1 sn2 q : Str) (maxN : Nat) (inc : Bool),
      2 ≤ maxN → normalize_title t1 ≠ normalize_title t2 →
      fetch_news (some
          [⟨"5분 전".toList, some ⟨t1, [], sn1⟩⟩,
           ⟨"5분 전".toList, some ⟨t2, [], sn2⟩⟩]) q maxN inc =
        [mkRow (if inc then some q else none) ⟨t1, [], sn1⟩,
         mkRow (if inc then some q else none) ⟨t2, [], sn2⟩]) := by
  have hstep : ∀ (maxN : Nat) (qq : Option Str) (s : SpanElt)
      (rest : List SpanElt) (seenT seenL : List Str) (rows : List Row)
      (card : Card),
      rows.length < maxN → parse_relative_allowed s.text = true →
      s.card = some card → normalize_link card.link = [] →
      fetchAux maxN qq (s :: rest) seenT seenL rows =
        if normalize_title card.title ∈ seenT then
          fetchAux maxN qq rest seenT seenL rows
        else
          fetchAux maxN qq rest (seenT ++ [normalize_title card.title]) seenL
            (rows ++ [mkRow qq card]) := by
    intro maxN qq s rest seenT seenL rows card hlen ht hc hln
    by_cases hT : normalize_title card.title ∈ seenT
    · rw [if_pos hT]
      exact fetchAux_reject hlen ht hc (Or.inr hT)
    · rw [if_neg hT]
      have hacc : ¬ ((normalize_link card.link ≠ [] ∧
          normalize_link card.link ∈ seenL) ∨
          normalize_title card.title ∈ seenT) := by
        intro hcon
        rcases hcon with ⟨hne, _⟩ | h
        · exact hne hln
        · exact hT h
      rw [fetchAux_accept hlen ht hc hacc, if_neg (by simp [hln])]
  refine ⟨hstep, ?_⟩
  intro t1 t2 sn1 sn2 q maxN inc hN hne
  show fetchAux maxN (if inc then some q else none)
    [⟨"5분 전".toList, some ⟨t1, [], sn1⟩⟩,
     ⟨"5분 전".toList, some ⟨t2, [], sn2⟩⟩] [] [] [] = _
  rw [hstep maxN (if inc then some q else none)
    ⟨"5분 전".toList, some ⟨t1, [], sn1⟩⟩
    [⟨"5분 전".toList, some ⟨t2, [], sn2⟩⟩] [] [] [] ⟨t1, [], sn1⟩
    (by simp only [List.length_nil]; omega)
    (by decide : parse_relative_allowed "5분 전".toList = true) rfl rfl]
  rw [if_neg (by simp)]
  show fetchAux maxN (if inc then some q else none)
    [⟨"5분 전".toList, some ⟨t2, [], sn2⟩⟩] [normalize_title t1] []
    [mkRow (if inc then some q else none) ⟨t1, [], sn1⟩] = _
  rw [hstep maxN (if inc then some q else none)
    ⟨"5분 전".toList, some ⟨t2, [], sn2⟩⟩ [] [normalize_title t1] []
    [mkRow (if inc then some q else none) ⟨t1, [], sn1⟩] ⟨t2, [], sn2⟩
    (by simp only [List.length_singleton]; omega)
    (by decide : parse_relative_allowed "5분 전".toList = true) rfl rfl]
  rw [if_neg (by
    simp only [List.mem_singleton]
    exact fun h => hne h.symm)]
  rfl

/-- Witness for C10 (amended): two empty-link cards with titles `a` and
`b` are both returned. -/
theorem claim_C10_witness :
    fetch_news (some
        [⟨"5분 전".toList, some ⟨"a".toList, [], []⟩⟩,
         ⟨"5분 전".toList, some ⟨"b".toList, [], []⟩⟩]) "q".toList 2 false =
      [⟨"a".toList, [], [], none⟩, ⟨"b".toList, [], [], none⟩] := by
  rw [claim_C10_empty_link_amended.2 "a".toList "b".toList [] [] "q".toList 2 false
    (by omega) (by decide)]
  rfl

end News

namespace News

/-! ## Non-blank values of `parse_qs` without `keep_blank_values` -/

theorem utf8Decode_ne_nil {bs : List Nat} (h : bs ≠ []) : utf8Decode bs ≠ [] := by
  cases bs with
  | nil => simp at h
  | cons b rest =>
    rw [utf8Decode.eq_def]
    simp only []
    (repeat' split) <;> simp

theorem unquoteGo_ne_nil :
    ∀ (s : Str) (acc : List Nat), (s ≠ [] ∨ acc ≠ []) → unquoteGo s acc ≠ [] := by
  intro s acc h
  induction s, acc using unquoteGo.induct with
  | case7 acc =>
    rcases h with h | h
    · simp at h
    · exact utf8Decode_ne_nil (by simpa using h)
  | case4 c h1 h2 rest2 acc hpct hhex ih =>
    rw [unquoteGo]
    split_ifs
    all_goals simp_all
  | case6 c rest acc hshape hpct ih =>
    rw [unquoteGo]
    · split_ifs
      all_goals simp_all
    · exact hshape
  | _ => simp_all [unquoteGo]

theorem unquote_plus_ne_nil {s : Str} (h : s ≠ []) : unquote_plus s ≠ [] := by
  apply unquoteGo_ne_nil
  left
  simpa [plusToSpace] using h

theorem parse_qsl_false_value_ne_nil {qs : Str} {p : Str × Str}
    (h : p ∈ parse_qsl false qs) : p.2 ≠ [] := by
  unfold parse_qsl at h
  rcases List.mem_filterMap.mp h with ⟨nv, hmem, hf⟩
  clear hmem h
  simp only [] at hf
  split_ifs at hf with h1 h2 h3 h4
  all_goals try exact h3.elim
  all_goals try simp at hf
  rcases h4 with h4 | h4
  · subst hf
    apply unquote_plus_ne_nil
    simpa using h4
  · exact h4.elim

/-- Folding `qsInsert` preserves a property of all stored values. -/
theorem foldl_qsInsert_values {P : Str → Prop} :
    ∀ (pairs : List (Str × Str)) (d : List (Str × List Str)),
      (∀ pr ∈ d, ∀ x ∈ pr.2, P x) → (∀ p ∈ pairs, P p.2) →
      ∀ pr ∈ pairs.foldl (fun d p => qsInsert d p.1 p.2) d, ∀ x ∈ pr.2, P x := by
  have hins : ∀ (d : List (Str × List Str)) (k v),
      (∀ pr ∈ d, ∀ x ∈ pr.2, P x) → P v →
      ∀ pr ∈ qsInsert d k v, ∀ x ∈ pr.2, P x := by
    intro d k v hd hv
    induction d with
    | nil =>
      intro pr hpr x hx
      simp only [qsInsert, List.mem_singleton] at hpr
      subst hpr
      simp only [List.mem_singleton] at hx
      subst hx
      exact hv
    | cons p0 rest ih =>
      intro pr hpr x hx
      unfold qsInsert at hpr
      split_ifs at hpr with hk
      · rcases List.mem_cons.mp hpr with hpr | hpr
        · subst hpr
          rcases List.mem_append.mp hx with hx | hx
          · exact hd p0 (by simp) x hx
          · simp only [List.mem_singleton] at hx
            subst hx
            exact hv
        · exact hd pr (by simp [hpr]) x hx
      · rcases List.mem_cons.mp hpr with hpr | hpr
        · subst hpr
          exact hd p0 (by simp) x hx
        · exact ih (fun a ha y hy => hd a (by simp [ha]) y hy) pr hpr x hx
  intro pairs
  induction pairs with
  | nil =>
    intro d hd _
    simpa using hd
  | cons p rest ih =>
    intro d hd hp
    simp only [List.foldl_cons]
    exact ih (qsInsert d p.1 p.2)
      (hins d p.1 p.2 hd (hp p (by simp)))
      (fun a ha => hp a (by simp [ha]))

theorem parse_qs_false_value_ne_nil {qs : Str} {pr : Str × List Str}
    (h : pr ∈ parse_qs false qs) : ∀ v ∈ pr.2, v ≠ [] := by
  unfold parse_qs at h
  exact foldl_qsInsert_values (parse_qsl false qs) [] (by simp)
    (fun p hp => parse_qsl_false_value_ne_nil hp) pr h

theorem firstVal_ne_nil {d : List (Str × List Str)} {k v : Str}
    (hall : ∀ pr ∈ d, ∀ x ∈ pr.2, x ≠ [])
    (h : firstVal d k = some v) : v ≠ [] := by
  unfold firstVal at h
  rcases Option.bind_eq_some.mp h with ⟨pr, hfind, hhead⟩
  exact hall pr (List.mem_of_find?_eq_some hfind) v (List.mem_of_mem_head? hhead)

end News

namespace News

/-! ## Claim C6: the news-aggregator special case -/

/-- Counterexample to C6 as stated: for a URL with an explicit port, the
host (the netloc up to the `:`) ends with `news.naver.com` and both `oid`
and `aid` are present, yet `normalize_link` does not produce the synthetic
key — the code tests the full netloc (`host:port`), which does not end
with the aggregator domain, so the URL falls through to the general
branch unchanged. -/
theorem claim_C6_counterexample :
    urlparse "http://news.naver.com:8080/a?oid=1&aid=2".toList =
      some ⟨"http".toList, "news.naver.com:8080".toList, "/a".toList, [],
        "oid=1&aid=2".toList, []⟩ ∧
    List.isSuffixOf "news.naver.com".toList
      (("news.naver.com:8080".toList).takeWhile (· ≠ ':')) = true ∧
    firstVal (parse_qs false "oid=1&aid=2".toList) "oid".toList =
      some "1".toList ∧
    firstVal (parse_qs false "oid=1&aid=2".toList) "aid".toList =
      some "2".toList ∧
    normalize_link "http://news.naver.com:8080/a?oid=1&aid=2".toList ≠
      "naver:oid=1&aid=2".toList ∧
    normalize_link "http://news.naver.com:8080/a?oid=1&aid=2".toList =
      "http://news.naver.com:8080/a?oid=1&aid=2".toList := by
  refine ⟨by decide, by decide, by decide, by decide, by decide, by decide⟩

/-- C6 (amended): for every URL whose *netloc* (lower-cased; the host
together with any userinfo and port) ends with `news.naver.com`: when both
`oid` and `aid` are present in the query (under `parse_qs` without blank
values), `normalize_link` returns exactly `naver:oid=<oid>&aid=<aid>` — so
any two such URLs sharing the `oid`/`aid` pair normalize to the identical
key; when either parameter is missing it returns the lower-cased netloc
followed by the path with trailing slashes stripped. -/
theorem claim_C6_naver_key_amended (url : Str) (p : UrlParts)
    (hp : urlparse url = some p)
    (hnav : List.isSuffixOf "news.naver.com".toList (pyLower p.netloc) = true) :
    (∀ o a, firstVal (parse_qs false p.query) "oid".toList = some o →
      firstVal (parse_qs false p.query) "aid".toList = some a →
      normalize_link url = "naver:oid=".toList ++ o ++ "&aid=".toList ++ a) ∧
    ((firstVal (parse_qs false p.query) "oid".toList = none ∨
      firstVal (parse_qs false p.query) "aid".toList = none) →
      normalize_link url = pyLower p.netloc ++ rstripSlash p.path) := by
  have hurl : url ≠ [] := by
    intro h
    subst h
    have hemp : urlparse ([] : Str) = some ⟨[], [], [], [], [], []⟩ := by decide
    rw [hemp] at hp
    obtain rfl := (Option.some_inj.mp hp).symm
    simp at hnav
    exact absurd hnav (by decide)
  constructor
  · intro o a ho ha
    have hall := fun pr hpr => @parse_qs_false_value_ne_nil p.query pr hpr
    have hone : o ≠ [] := firstVal_ne_nil hall ho
    have hane : a ≠ [] := firstVal_ne_nil hall ha
    unfold normalize_link
    rw [if_neg hurl, hp]
    simp only [hnav, if_true, ho, ha]
    rw [if_pos ⟨hone, hane⟩]
  · intro hor
    unfold normalize_link
    rw [if_neg hurl, hp]
    simp only [hnav, if_true]
    rcases hor with h | h
    · rw [h]
    · cases hoid : firstVal (parse_qs false p.query) "oid".toList with
      | none => rfl
      | some v => rw [h]

/-- Witness for C6 (amended): a canonical aggregator URL with tracking
parameters collapses to the compact key, and a fallback URL without `aid`
keeps netloc and slash-stripped path. -/
theorem claim_C6_witness :
    normalize_link "https://news.naver.com/read?oid=77&aid=88&x=1".toList =
      "naver:oid=77&aid=88".toList ∧
    normalize_link "https://news.naver.com/read/?oid=9".toList =
      "news.naver.com/read".toList := by
  constructor
  · rw [(claim_C6_naver_key_amended "https://news.naver.com/read?oid=77&aid=88&x=1".toList
      ⟨"https".toList, "news.naver.com".toList, "/read".toList, [],
        "oid=77&aid=88&x=1".toList, []⟩ (by decide) (by decide)).1
      "77".toList "88".toList (by decide) (by decide)]
    decide
  · rw [(claim_C6_naver_key_amended "https://news.naver.com/read/?oid=9".toList
      ⟨"https".toList, "news.naver.com".toList, "/read/".toList, [],
        "oid=9".toList, []⟩ (by decide) (by decide)).2 (Or.inr (by decide))]
    decide

end News

namespace News

/-! ## Claim C7: the general normalization branch -/

/-- C7: for every parseable URL whose (lower-cased) netloc does not end in
the aggregator domain, `normalize_link` rebuilds the URL from the
lower-cased scheme (defaulted to `https`) and netloc, the path with
trailing slashes stripped (defaulted to `/`), no params and no fragment,
and a query from which every tracking-listed parameter name has been
removed and the remaining values sorted; in particular
`normalize_link "https://example.com/a?utm_source=x&id=1"` is
`"https://example.com/a?id=1"`, which contains `id=1` and does not
contain `utm_source`. -/
theorem claim_C7_general_branch :
    (∀ (url : Str) (p : UrlParts), urlparse url = some p → url ≠ [] →
      ¬ List.isSuffixOf "news.naver.com".toList (pyLower p.netloc) = true →
      normalize_link url =
        urlunparse
          (if pyLower p.scheme = [] then "https".toList else pyLower p.scheme)
          (pyLower p.netloc)
          (if rstripSlash p.path = [] then ['/'] else rstripSlash p.path) []
          (urlencode (((parse_qs true p.query).filter
              (fun pr => ¬ pr.1 ∈ TRACKING_PARAMS)).map
            (fun pr => (pr.1, pySorted pr.2)))) []) ∧
    normalize_link "https://example.com/a?utm_source=x&id=1".toList =
      "https://example.com/a?id=1".toList ∧
    List.IsInfix "id=1".toList
      (normalize_link "https://example.com/a?utm_source=x&id=1".toList) ∧
    ¬ List.IsInfix "utm_source".toList
      (normalize_link "https://example.com/a?utm_source=x&id=1".toList) := by
  refine ⟨?_, by decide, by decide, by decide⟩
  intro url p hp hurl hnav
  unfold normalize_link
  rw [if_neg hurl, hp]
  simp only [Bool.not_eq_true] at hnav
  simp only [hnav, Bool.false_eq_true, if_false]

/-- Witness for C7: instantiating the general equation at the example URL
reproduces the canonical form. -/
theorem claim_C7_witness :
    normalize_link "https://example.com/a?utm_source=x&id=1".toList =
      urlunparse "https".toList "example.com".toList "/a".toList []
        (urlencode [("id".toList, ["1".toList])]) [] := by
  rw [claim_C7_general_branch.1 "https://example.com/a?utm_source=x&id=1".toList
    ⟨"https".toList, "example.com".toList, "/a".toList, [],
      "utm_source=x&id=1".toList, []⟩ (by decide) (by decide) (by decide)]
  decide

end News

namespace News

/-! ## Round trip of the percent-codec (towards claim C3) -/

theorem hexVal_hexUpper {n : Nat} (h : n < 16) : hexVal (hexUpper n) = some n := by
  unfold hexVal hexUpper
  by_cases h10 : n < 10
  · rw [if_pos h10]
    have hv : (Char.ofNat (48 + n)).toNat = 48 + n :=
      toNat_ofNat_isValid (isValidChar_of_small (by omega))
    rw [if_pos ⟨by rw [char_le_iff_toNat, hv]; simp,
      by rw [char_le_iff_toNat, hv]; simp; omega⟩]
    rw [hv]
    simp
  · rw [if_neg h10]
    have hv : (Char.ofNat (55 + n)).toNat = 55 + n :=
      toNat_ofNat_isValid (isValidChar_of_small (by omega))
    rw [if_neg (by
      intro hc
      have := char_le_iff_toNat.mp hc.2
      rw [hv] at this
      simp at this
      omega)]
    rw [if_pos ⟨by rw [char_le_iff_toNat, hv]; simp; omega,
      by rw [char_le_iff_toNat, hv]; simp; omega⟩]
    rw [hv]
    simp

theorem isAlwaysSafe_toNat {c : Char} (h : isAlwaysSafe c = true) :
    c.toNat < 128 ∧ c.toNat ≠ 37 ∧ c.toNat ≠ 43 ∧ c.toNat ≠ 32 := by
  unfold isAlwaysSafe isAsciiAlpha isDigitCh at h
  simp only [Bool.or_eq_true, decide_eq_true_eq, char_eq_iff_toNat,
    char_le_iff_toNat,
    show ('A' : Char).toNat = 65 from rfl, show ('Z' : Char).toNat = 90 from rfl,
    show ('a' : Char).toNat = 97 from rfl, show ('z' : Char).toNat = 122 from rfl,
    show ('0' : Char).toNat = 48 from rfl, show ('9' : Char).toNat = 57 from rfl,
    show ('_' : Char).toNat = 95 from rfl, show ('.' : Char).toNat = 46 from rfl,
    show ('-' : Char).toNat = 45 from rfl, show ('~' : Char).toNat = 126 from rfl] at h
  omega

theorem hexUpper_toNat {n : Nat} (h : n < 16) :
    48 ≤ (hexUpper n).toNat ∧ (hexUpper n).toNat ≤ 70 := by
  unfold hexUpper
  split_ifs with h10
  · rw [toNat_ofNat_isValid (isValidChar_of_small (by omega))]
    omega
  · rw [toNat_ofNat_isValid (isValidChar_of_small (by omega))]
    omega

theorem utf8EncodeChar_lt_256 (c : Char) : ∀ b ∈ utf8EncodeChar c, b < 256 := by
  intro b hb
  have hv : c.toNat < 1114112 := by
    rcases c.valid with h | h
    · exact Nat.lt_trans h (by norm_num)
    · exact h.2
  simp only [utf8EncodeChar] at hb
  split_ifs at hb
  all_goals simp only [List.mem_cons, List.not_mem_nil, or_false] at hb
  all_goals (rcases hb with rfl | rfl | rfl | rfl; all_goals omega)

theorem plusToSpace_eq_self {l : Str} (h : ∀ c ∈ l, c ≠ '+') :
    plusToSpace l = l := by
  unfold plusToSpace
  induction l with
  | nil => rfl
  | cons c rest ih =>
    simp only [List.map_cons]
    rw [if_neg (h c (by simp)), ih (fun d hd => h d (by simp [hd]))]

theorem mem_cmap_pctByte {bytes : List Nat} (hb : ∀ b ∈ bytes, b < 256) :
    ∀ c ∈ cmap pctByte bytes, c = '%' ∨ (48 ≤ c.toNat ∧ c.toNat ≤ 70) := by
  induction bytes with
  | nil => simp [cmap]
  | cons b rest ih =>
    intro c hc
    unfold cmap at hc
    rcases List.mem_append.mp hc with hc | hc
    · unfold pctByte at hc
      simp only [List.mem_cons, List.mem_singleton] at hc
      rcases hc with rfl | rfl | hc
      · exact Or.inl rfl
      · exact Or.inr (hexUpper_toNat (by
          have := hb b (by simp)
          omega))
      · rcases hc with rfl | hc
        · exact Or.inr (hexUpper_toNat (by
            have := hb b (by simp)
            omega))
        · simp at hc
    · exact ih (fun x hx => hb x (by simp [hx])) c hc

theorem unquoteGo_ascii {c : Char} {t : Str} {acc : List Nat}
    (h1 : c.toNat < 128) (h2 : c ≠ '%') :
    unquoteGo (c :: t) acc = unquoteGo t (c.toNat :: acc) := by
  match t with
  | [] => simp [unquoteGo, h1]
  | [a] => simp [unquoteGo, h1]
  | a :: b :: t2 => simp [unquoteGo, h1, h2]

theorem unquoteGo_pct {b : Nat} {t : Str} {acc : List Nat} (hb : b < 256) :
    unquoteGo ('%' :: hexUpper (b / 16) :: hexUpper (b % 16) :: t) acc =
      unquoteGo t (b :: acc) := by
  show (if ('%' : Char) = '%' then _ else _) = _
  rw [if_pos rfl]
  rw [hexVal_hexUpper (by omega), hexVal_hexUpper (by omega)]
  show unquoteGo t ((b / 16 * 16 + b % 16) :: acc) = unquoteGo t (b :: acc)
  rw [show b / 16 * 16 + b % 16 = b by omega]

theorem unquoteGo_pct_run {bytes : List Nat} (hb : ∀ b ∈ bytes, b < 256)
    (t : Str) (acc : List Nat) :
    unquoteGo (cmap pctByte bytes ++ t) acc =
      unquoteGo t (bytes.reverse ++ acc) := by
  induction bytes generalizing acc with
  | nil => simp [cmap]
  | cons b rest ih =>
    show unquoteGo (('%' :: hexUpper (b / 16) :: hexUpper (b % 16) :: []) ++
      cmap pctByte rest ++ t) acc = _
    simp only [List.cons_append, List.nil_append]
    rw [unquoteGo_pct (hb b (by simp))]
    rw [ih (fun x hx => hb x (by simp [hx]))]
    simp

end News


namespace News

/-! ## UTF-8 round trip -/

theorem isCont_iff {b : Nat} : isCont b = true ↔ 0x80 ≤ b ∧ b ≤ 0xBF := by
  unfold isCont
  simp

theorem utf8Decode_encodeChar (c : Char) (bs : List Nat) :
    utf8Decode (utf8EncodeChar c ++ bs) = c :: utf8Decode bs := by
  have hval : c.toNat < 0xd800 ∨ (0xe000 ≤ c.toNat ∧ c.toNat < 0x110000) := by
    rcases c.valid with h | h
    · exact Or.inl h
    · refine Or.inr ⟨?_, h.2⟩
      have h1 := h.1
      show 0xe000 ≤ c.val.toNat
      omega
  have hofn : Char.ofNat c.toNat = c := Char.ofNat_toNat c
  simp only [utf8EncodeChar]
  by_cases h1 : c.toNat < 0x80
  · rw [if_pos h1]
    simp only [List.cons_append, List.nil_append]
    rw [utf8Decode.eq_def]
    simp only []
    rw [if_pos h1, hofn]
  · rw [if_neg h1]
    by_cases h2 : c.toNat < 0x800
    · rw [if_pos h2]
      simp only [List.cons_append, List.nil_append]
      rw [utf8Decode.eq_def]
      simp only []
      rw [if_neg (by omega), if_neg (by omega), if_pos (by omega)]
      rw [if_pos (isCont_iff.mpr (by omega))]
      rw [show (0xC0 + c.toNat / 0x40 - 0xC0) * 0x40 + (0x80 + c.toNat % 0x40 - 0x80)
          = c.toNat by omega, hofn]
    · by_cases h3 : c.toNat < 0x10000
      · rw [if_neg h2, if_pos h3]
        simp only [List.cons_append, List.nil_append]
        rw [utf8Decode.eq_def]
        simp only []
        rw [if_neg (by omega), if_neg (by omega), if_neg (by omega), if_pos (by omega)]
        have hv2 : utf8Valid2 (0xE0 + c.toNat / 0x1000) (0x80 + c.toNat / 0x40 % 0x40) = true := by
          unfold utf8Valid2
          split_ifs with hE0 hED hF0 hF4
          · simp only [decide_eq_true_eq]
            omega
          · simp only [decide_eq_true_eq]
            omega
          · omega
          · omega
          · exact isCont_iff.mpr (by omega)
        rw [if_pos hv2, if_pos (isCont_iff.mpr (by omega))]
        rw [show (0xE0 + c.toNat / 0x1000 - 0xE0) * 0x1000 +
            (0x80 + c.toNat / 0x40 % 0x40 - 0x80) * 0x40 +
            (0x80 + c.toNat % 0x40 - 0x80) = c.toNat by omega, hofn]
      · rw [if_neg h2, if_neg h3]
        simp only [List.cons_append, List.nil_append]
        rw [utf8Decode.eq_def]
        simp only []
        rw [if_neg (by omega), if_neg (by omega), if_neg (by omega), if_neg (by omega),
          if_pos (by omega)]
        have hv2 : utf8Valid2 (0xF0 + c.toNat / 0x40000) (0x80 + c.toNat / 0x1000 % 0x40) = true := by
          unfold utf8Valid2
          split_ifs with hE0 hED hF0 hF4
          · omega
          · omega
          · simp only [decide_eq_true_eq]
            omega
          · simp only [decide_eq_true_eq]
            omega
          · exact isCont_iff.mpr (by omega)
        rw [if_pos hv2, if_pos (isCont_iff.mpr (by omega)), if_pos (isCont_iff.mpr (by omega))]
        rw [show (0xF0 + c.toNat / 0x40000 - 0xF0) * 0x40000 +
            (0x80 + c.toNat / 0x1000 % 0x40 - 0x80) * 0x1000 +
            (0x80 + c.toNat / 0x40 % 0x40 - 0x80) * 0x40 +
            (0x80 + c.toNat % 0x40 - 0x80) = c.toNat by omega, hofn]

end News

namespace News

/-- Decoding an encoded string recovers it. -/
theorem utf8Decode_encode (s : Str) :
    utf8Decode (cmap utf8EncodeChar s) = s := by
  induction s with
  | nil => rfl
  | cons c rest ih =>
    show utf8Decode (utf8EncodeChar c ++ cmap utf8EncodeChar rest) = _
    rw [utf8Decode_encodeChar, ih]

/-- Main invariant for `unquote_plus ∘ quote_plus`: scanning the
plus-substituted quoted text extends the pending byte accumulator with the
UTF-8 encoding of the original text. -/
theorem unquoteGo_quote (s : Str) :
    ∀ acc : List Nat,
      unquoteGo (plusToSpace (quote_plus s)) acc =
        utf8Decode (acc.reverse ++ cmap utf8EncodeChar s) := by
  induction s with
  | nil =>
    intro acc
    simp [quote_plus, cmap, plusToSpace, unquoteGo]
  | cons c rest ih =>
    intro acc
    show unquoteGo (plusToSpace ((if c = ' ' then ['+']
      else if isAlwaysSafe c then [c]
      else cmap pctByte (utf8EncodeChar c)) ++ quote_plus rest)) acc = _
    rw [show plusToSpace ((if c = ' ' then ['+']
        else if isAlwaysSafe c then [c]
        else cmap pctByte (utf8EncodeChar c)) ++ quote_plus rest) =
      plusToSpace (if c = ' ' then ['+']
        else if isAlwaysSafe c then [c]
        else cmap pctByte (utf8EncodeChar c)) ++ plusToSpace (quote_plus rest) from
      List.map_append _ _ _]
    by_cases hsp : c = ' '
    · subst hsp
      rw [if_pos rfl]
      rw [show plusToSpace ['+'] = [' '] from rfl]
      simp only [List.singleton_append]
      rw [unquoteGo_ascii (by decide) (by decide)]
      rw [ih (' '.toNat :: acc)]
      show _ = utf8Decode (acc.reverse ++ (utf8EncodeChar ' ' ++ _))
      rw [show utf8EncodeChar ' ' = [32] from rfl,
        show (' ' : Char).toNat = 32 from rfl]
      simp
    · rw [if_neg hsp]
      by_cases hsafe : isAlwaysSafe c = true
      · rw [if_pos hsafe]
        have hc := isAlwaysSafe_toNat hsafe
        rw [plusToSpace_eq_self (by
          intro d hd
          simp only [List.mem_singleton] at hd
          subst hd
          intro hplus
          rw [char_eq_iff_toNat] at hplus
          simp at hplus
          omega)]
        simp only [List.singleton_append]
        rw [unquoteGo_ascii hc.1 (by
          intro hpct
          rw [char_eq_iff_toNat] at hpct
          simp at hpct
          omega)]
        rw [ih (c.toNat :: acc)]
        show _ = utf8Decode (acc.reverse ++ (utf8EncodeChar c ++ _))
        rw [show utf8EncodeChar c = [c.toNat] by
          simp only [utf8EncodeChar]
          rw [if_pos hc.1]]
        simp
      · rw [if_neg hsafe]
        rw [plusToSpace_eq_self (by
          intro d hd
          rcases mem_cmap_pctByte (utf8EncodeChar_lt_256 c) d hd with h | h
          · subst h
            decide
          · intro hplus
            rw [char_eq_iff_toNat] at hplus
            simp at hplus
            omega)]
        rw [unquoteGo_pct_run (utf8EncodeChar_lt_256 c)]
        rw [ih ((utf8EncodeChar c).reverse ++ acc)]
        show _ = utf8Decode (acc.reverse ++ (utf8EncodeChar c ++ _))
        simp

/-- Decoding after encoding is the identity: `unquote_plus (quote_plus s) = s`. -/
theorem unquote_plus_quote_plus (s : Str) : unquote_plus (quote_plus s) = s := by
  unfold unquote_plus pyUnquote
  rw [unquoteGo_quote s []]
  simp only [List.reverse_nil, List.nil_append]
  exact utf8Decode_encode s

end News
namespace News

/-- The two hex-digit ranges of `hexUpper`. -/
theorem hexUpper_ranges {n : Nat} (h : n < 16) :
    (48 ≤ (hexUpper n).toNat ∧ (hexUpper n).toNat ≤ 57) ∨
      (65 ≤ (hexUpper n).toNat ∧ (hexUpper n).toNat ≤ 70) := by
  unfold hexUpper
  split_ifs with h10
  · rw [toNat_ofNat_isValid (isValidChar_of_small (by omega))]
    omega
  · rw [toNat_ofNat_isValid (isValidChar_of_small (by omega))]
    omega

/-- The exact code-point ranges admitted by `isAlwaysSafe`. -/
theorem isAlwaysSafe_ranges {c : Char} (h : isAlwaysSafe c = true) :
    (65 ≤ c.toNat ∧ c.toNat ≤ 90) ∨ (97 ≤ c.toNat ∧ c.toNat ≤ 122) ∨
      (48 ≤ c.toNat ∧ c.toNat ≤ 57) ∨ c.toNat = 95 ∨ c.toNat = 46 ∨
      c.toNat = 45 ∨ c.toNat = 126 := by
  unfold isAlwaysSafe isAsciiAlpha isDigitCh at h
  simp only [Bool.or_eq_true, decide_eq_true_eq, char_eq_iff_toNat,
    char_le_iff_toNat,
    show ('A' : Char).toNat = 65 from rfl, show ('Z' : Char).toNat = 90 from rfl,
    show ('a' : Char).toNat = 97 from rfl, show ('z' : Char).toNat = 122 from rfl,
    show ('0' : Char).toNat = 48 from rfl, show ('9' : Char).toNat = 57 from rfl,
    show ('_' : Char).toNat = 95 from rfl, show ('.' : Char).toNat = 46 from rfl,
    show ('-' : Char).toNat = 45 from rfl, show ('~' : Char).toNat = 126 from rfl] at h
  omega

/-- Membership in a `cmap`. -/
theorem mem_cmap {α β : Type} {f : α → List β} {b : β} :
    ∀ {l : List α}, b ∈ cmap f l ↔ ∃ a ∈ l, b ∈ f a
  | [] => by simp [cmap]
  | a :: rest => by
    rw [show cmap f (a :: rest) = f a ++ cmap f rest from rfl, List.mem_append,
      mem_cmap]
    simp only [List.mem_cons]
    constructor
    · rintro (h | ⟨x, hx, hb⟩)
      · exact ⟨a, Or.inl rfl, h⟩
      · exact ⟨x, Or.inr hx, hb⟩
    · rintro ⟨x, hx | hx, hb⟩
      · exact Or.inl (hx ▸ hb)
      · exact Or.inr ⟨x, hx, hb⟩

/-- Every character emitted by `quote_plus` is `+`, `%`, a hex digit, or an
always-safe character. -/
theorem quote_plus_chars {s : Str} {c : Char} (h : c ∈ quote_plus s) :
    c.toNat = 43 ∨ c.toNat = 37 ∨ (48 ≤ c.toNat ∧ c.toNat ≤ 57) ∨
      (65 ≤ c.toNat ∧ c.toNat ≤ 70) ∨ isAlwaysSafe c = true := by
  unfold quote_plus at h
  rcases mem_cmap.mp h with ⟨a, _, hc⟩
  by_cases hsp : a = ' '
  · rw [if_pos hsp, List.mem_singleton] at hc
    subst hc
    exact Or.inl rfl
  · rw [if_neg hsp] at hc
    by_cases hsafe : isAlwaysSafe a = true
    · rw [if_pos hsafe, List.mem_singleton] at hc
      subst hc
      exact Or.inr (Or.inr (Or.inr (Or.inr hsafe)))
    · rw [if_neg hsafe] at hc
      rcases mem_cmap.mp hc with ⟨b, hb, hcb⟩
      have hb256 : b < 256 := utf8EncodeChar_lt_256 a b hb
      unfold pctByte at hcb
      simp only [List.mem_cons, List.not_mem_nil, or_false] at hcb
      rcases hcb with rfl | hcb | hcb
      · exact Or.inr (Or.inl rfl)
      · subst hcb
        rcases hexUpper_ranges (show b / 16 < 16 by omega) with h' | h'
        · exact Or.inr (Or.inr (Or.inl h'))
        · exact Or.inr (Or.inr (Or.inr (Or.inl h')))
      · subst hcb
        rcases hexUpper_ranges (show b % 16 < 16 by omega) with h' | h'
        · exact Or.inr (Or.inr (Or.inl h'))
        · exact Or.inr (Or.inr (Or.inr (Or.inl h')))

/-- `quote_plus` output never contains a URL metacharacter, an unsafe byte
or a control character. -/
theorem quote_plus_no_special {s : Str} {c : Char} (h : c ∈ quote_plus s) :
    c ≠ '&' ∧ c ≠ '=' ∧ c ≠ '#' ∧ c ≠ '?' ∧ c ≠ '/' ∧ c ≠ ';' ∧ c ≠ ':' ∧
      isUnsafeUrlByte c = false ∧ 0x20 < c.toNat := by
  have hq := quote_plus_chars h
  have hN : c.toNat ≠ 38 ∧ c.toNat ≠ 61 ∧ c.toNat ≠ 35 ∧ c.toNat ≠ 63 ∧
      c.toNat ≠ 47 ∧ c.toNat ≠ 59 ∧ c.toNat ≠ 58 ∧ c.toNat ≠ 9 ∧
      c.toNat ≠ 13 ∧ c.toNat ≠ 10 ∧ 0x20 < c.toNat := by
    rcases hq with h' | h' | h' | h' | h'
    · omega
    · omega
    · omega
    · omega
    · rcases isAlwaysSafe_ranges h' with h'' | h'' | h'' | h'' | h'' | h'' | h'' <;>
        omega
  refine ⟨?_, ?_, ?_, ?_, ?_, ?_, ?_, ?_, hN.2.2.2.2.2.2.2.2.2.2⟩
  · exact fun he => hN.1 (char_eq_iff_toNat.mp he)
  · exact fun he => hN.2.1 (char_eq_iff_toNat.mp he)
  · exact fun he => hN.2.2.1 (char_eq_iff_toNat.mp he)
  · exact fun he => hN.2.2.2.1 (char_eq_iff_toNat.mp he)
  · exact fun he => hN.2.2.2.2.1 (char_eq_iff_toNat.mp he)
  · exact fun he => hN.2.2.2.2.2.1 (char_eq_iff_toNat.mp he)
  · exact fun he => hN.2.2.2.2.2.2.1 (char_eq_iff_toNat.mp he)
  · unfold isUnsafeUrlByte
    simp only [Bool.or_eq_false_iff, decide_eq_false_iff_not]
    exact ⟨⟨fun he => hN.2.2.2.2.2.2.2.1 (char_eq_iff_toNat.mp he),
      fun he => hN.2.2.2.2.2.2.2.2.1 (char_eq_iff_toNat.mp he)⟩,
      fun he => hN.2.2.2.2.2.2.2.2.2.1 (char_eq_iff_toNat.mp he)⟩

/-- Membership in `joinSep`: the separator or a character of some piece. -/
theorem mem_joinSep {sep c : Char} :
    ∀ (L : List Str), c ∈ joinSep sep L → c = sep ∨ ∃ x ∈ L, c ∈ x
  | [] => by simp [joinSep]
  | [x] => fun h => Or.inr ⟨x, by simp, h⟩
  | x :: y :: rest => by
    intro h
    rw [show joinSep sep (x :: y :: rest) = x ++ sep :: joinSep sep (y :: rest)
      from rfl] at h
    rcases List.mem_append.mp h with h | h
    · exact Or.inr ⟨x, by simp, h⟩
    · rcases List.mem_cons.mp h with h | h
      · exact Or.inl h
      · rcases mem_joinSep (y :: rest) h with h | ⟨z, hz, hc⟩
        · exact Or.inl h
        · exact Or.inr ⟨z, by simp [List.mem_cons.mp hz], hc⟩

/-- `urlencode` output contains no `#` and no unsafe byte. -/
theorem urlencode_char_facts {m : List (Str × List Str)} {c : Char}
    (h : c ∈ urlencode m) : c ≠ '#' ∧ isUnsafeUrlByte c = false := by
  unfold urlencode at h
  rcases mem_joinSep _ h with rfl | ⟨x, hx, hcx⟩
  · exact ⟨by decide, by decide⟩
  · rcases mem_cmap.mp hx with ⟨pr, _, hxpr⟩
    rcases List.mem_map.mp hxpr with ⟨v, _, rfl⟩
    rcases List.mem_append.mp hcx with hc | hc
    · exact ⟨(quote_plus_no_special hc).2.2.1, (quote_plus_no_special hc).2.2.2.2.2.2.2.1⟩
    · rcases List.mem_cons.mp hc with rfl | hc
      · exact ⟨by decide, by decide⟩
      · exact ⟨(quote_plus_no_special hc).2.2.1, (quote_plus_no_special hc).2.2.2.2.2.2.2.1⟩

/-- One step of `splitSepAux`. -/
theorem splitSepAux_cons (sep c : Char) (rest acc : Str) :
    splitSepAux sep (c :: rest) acc =
      if c = sep then acc.reverse :: splitSepAux sep rest []
      else splitSepAux sep rest (c :: acc) := rfl

/-- Scanning a separator-free prefix just accumulates it. -/
theorem splitSepAux_sepfree {sep : Char} :
    ∀ (w l acc : Str), (∀ c ∈ w, c ≠ sep) →
      splitSepAux sep (w ++ l) acc = splitSepAux sep l (w.reverse ++ acc)
  | [], l, acc, _ => by simp
  | c :: w', l, acc, h => by
    rw [List.cons_append, splitSepAux_cons,
      if_neg (h c (by simp)),
      splitSepAux_sepfree w' l (c :: acc) (fun d hd => h d (by simp [hd]))]
    simp [List.reverse_cons, List.append_assoc]

/-- Splitting undoes joining when no piece contains the separator. -/
theorem splitSep_joinSep {sep : Char} :
    ∀ (L : List Str), L ≠ [] → (∀ x ∈ L, ∀ c ∈ x, c ≠ sep) →
      splitSep sep (joinSep sep L) = L
  | [], h, _ => absurd rfl h
  | [x], _, hx => by
    show splitSepAux sep x [] = [x]
    have h := splitSepAux_sepfree x [] [] (hx x (by simp))
    simp only [List.append_nil] at h
    rw [h]
    simp [splitSepAux]
  | x :: y :: rest, _, hx => by
    show splitSepAux sep (x ++ sep :: joinSep sep (y :: rest)) [] = x :: y :: rest
    rw [splitSepAux_sepfree x _ [] (hx x (by simp)), splitSepAux_cons,
      if_pos rfl]
    simp only [List.append_nil, List.reverse_reverse]
    congr 1
    exact splitSep_joinSep (y :: rest) (by simp)
      (fun z hz => hx z (by simp [List.mem_cons.mp hz]))

/-- A `k=v` query chunk is nonempty. -/
theorem qsl_piece_ne_nil (k v : Str) :
    quote_plus k ++ '=' :: quote_plus v ≠ [] := by
  simp

/-- The first `=` of a `quote_plus k ++ "=" ++ quote_plus v` chunk is the
inserted one. -/
theorem qsl_piece_takeWhile (k v : Str) :
    (quote_plus k ++ '=' :: quote_plus v).takeWhile (· ≠ '=') = quote_plus k := by
  have : ∀ (w : Str) (a : Char) (l : Str) (p : Char → Bool),
      (∀ c ∈ w, p c = true) → p a = false → (w ++ a :: l).takeWhile p = w := by
    intro w
    induction w with
    | nil =>
      intro a l p _ ha
      simp [List.takeWhile_cons, ha]
    | cons c w' ih =>
      intro a l p h ha
      rw [List.cons_append, List.takeWhile_cons, if_pos (h c (by simp)),
        ih a l p (fun d hd => h d (by simp [hd])) ha]
  exact this (quote_plus k) '=' (quote_plus v) _
    (fun c hc => decide_eq_true (quote_plus_no_special hc).2.1) (by decide)

/-- `parse_qsl` with `keep_blank_values` inverts `urlencode`d pairs. -/
theorem parse_qsl_encode :
    ∀ (L : List (Str × Str)),
      parse_qsl true
        (joinSep '&' (L.map (fun kv => quote_plus kv.1 ++ '=' :: quote_plus kv.2))) = L := by
  have heval : ∀ (L : List (Str × Str)),
      (L.map (fun kv => quote_plus kv.1 ++ '=' :: quote_plus kv.2)).filterMap
        (fun nv =>
          if nv = [] then none
          else
            let name := nv.takeWhile (· ≠ '=')
            if name.length = nv.length then
              if (true : Bool) then some (unquote_plus name, ([] : Str)) else none
            else
              let value := nv.drop (name.length + 1)
              if value ≠ [] ∨ (true : Bool) = true then
                some (unquote_plus name, unquote_plus value)
              else none) = L := by
    intro L
    induction L with
    | nil => simp
    | cons kv rest ih =>
      have h1 : ¬ (quote_plus kv.1 ++ '=' :: quote_plus kv.2 = ([] : Str)) := by simp
      have hlen : ¬ ((quote_plus kv.1).length =
          (quote_plus kv.1 ++ '=' :: quote_plus kv.2).length) := by
        simp only [List.length_append, List.length_cons]
        omega
      have hdrop : (quote_plus kv.1 ++ '=' :: quote_plus kv.2).drop
          ((quote_plus kv.1).length + 1) = quote_plus kv.2 := by
        rw [show quote_plus kv.1 ++ '=' :: quote_plus kv.2 =
            (quote_plus kv.1 ++ ['=']) ++ quote_plus kv.2 by simp,
          show (quote_plus kv.1).length + 1 = (quote_plus kv.1 ++ ['=']).length by simp]
        exact List.drop_left _ _
      have hf : (fun nv =>
          if nv = [] then none
          else
            let name := nv.takeWhile (· ≠ '=')
            if name.length = nv.length then
              if (true : Bool) then some (unquote_plus name, ([] : Str)) else none
            else
              let value := nv.drop (name.length + 1)
              if value ≠ [] ∨ (true : Bool) = true then
                some (unquote_plus name, unquote_plus value)
              else none) (quote_plus kv.1 ++ '=' :: quote_plus kv.2)
          = some (kv.1, kv.2) := by
        simp only [if_neg h1, qsl_piece_takeWhile, if_neg hlen, hdrop, or_true,
          unquote_plus_quote_plus]
        exact if_pos trivial
      rw [List.map_cons]
      refine (@List.filterMap_cons_some _ _ _ _ _ (kv.1, kv.2) ?_).trans ?_
      · exact hf
      · rw [ih]
  intro L
  cases L with
  | nil => rfl
  | cons kv rest =>
    unfold parse_qsl
    have hq : joinSep '&'
        ((kv :: rest).map (fun kv => quote_plus kv.1 ++ '=' :: quote_plus kv.2)) ≠ [] := by
      rcases rest with _ | ⟨y, t⟩
      · exact qsl_piece_ne_nil kv.1 kv.2
      · rw [List.map_cons,
          show joinSep '&' ((quote_plus kv.1 ++ '=' :: quote_plus kv.2) ::
            (y :: t).map (fun kv => quote_plus kv.1 ++ '=' :: quote_plus kv.2)) =
            (quote_plus kv.1 ++ '=' :: quote_plus kv.2) ++ '&' ::
              joinSep '&' ((y :: t).map
                (fun kv => quote_plus kv.1 ++ '=' :: quote_plus kv.2)) from ?_]
        · simp
        · rw [List.map_cons]
          rfl
    rw [if_neg hq,
      splitSep_joinSep _ (by simp) ?hfree]
    case hfree =>
      intro x hx c hc
      rcases List.mem_map.mp hx with ⟨kv', _, rfl⟩
      rcases List.mem_append.mp hc with hc | hc
      · exact (quote_plus_no_special hc).1
      · rcases List.mem_cons.mp hc with rfl | hc
        · decide
        · exact (quote_plus_no_special hc).1
    exact heval (kv :: rest)

end News
namespace News

/-- `cmap` unfolding on a cons. -/
theorem cmap_cons {α β : Type} (f : α → List β) (a : α) (l : List α) :
    cmap f (a :: l) = f a ++ cmap f l := rfl

/-- `urlencode` is the joined encoding of the flattened pair list. -/
theorem urlencode_eq_flatten (m : List (Str × List Str)) :
    urlencode m = joinSep '&'
      ((qsFlatten m).map (fun kv => quote_plus kv.1 ++ '=' :: quote_plus kv.2)) := by
  unfold urlencode qsFlatten
  congr 1
  induction m with
  | nil => rfl
  | cons pr rest ih =>
    rw [cmap_cons, cmap_cons, List.map_append, List.map_map, ih]
    rfl

/-- `qsInsert` unfolding on a cons. -/
theorem qsInsert_cons (p0 : Str × List Str) (rest : List (Str × List Str))
    (k : Str) (v : Str) :
    qsInsert (p0 :: rest) k v =
      if p0.1 = k then (p0.1, p0.2 ++ [v]) :: rest
      else p0 :: qsInsert rest k v := by
  obtain ⟨k0, vs⟩ := p0
  rfl

/-- Inserting a fresh key appends a new singleton entry. -/
theorem qsInsert_new {d : List (Str × List Str)} {k : Str} (v : Str)
    (h : ∀ pr ∈ d, pr.1 ≠ k) : qsInsert d k v = d ++ [(k, [v])] := by
  induction d with
  | nil => rfl
  | cons p0 rest ih =>
    rw [qsInsert_cons, if_neg (h p0 (by simp)), List.cons_append,
      ih (fun pr hpr => h pr (by simp [hpr]))]

/-- Inserting an existing final key appends to its value list. -/
theorem qsInsert_last (d : List (Str × List Str)) (k : Str) (acc : List Str)
    (v : Str) (h : ∀ pr ∈ d, pr.1 ≠ k) :
    qsInsert (d ++ [(k, acc)]) k v = d ++ [(k, acc ++ [v])] := by
  induction d with
  | nil =>
    rw [List.nil_append, List.nil_append, qsInsert_cons, if_pos rfl]
  | cons p0 rest ih =>
    rw [List.cons_append, qsInsert_cons, if_neg (h p0 (by simp)),
      ih (fun pr hpr => h pr (by simp [hpr])), List.cons_append]

/-- Folding a run of pairs sharing one fresh key grows that key's values. -/
theorem foldl_qsInsert_same_key (k : Str) :
    ∀ (vs : List Str) (d : List (Str × List Str)) (acc : List Str),
      (∀ pr ∈ d, pr.1 ≠ k) →
      (vs.map (fun v => (k, v))).foldl (fun d p => qsInsert d p.1 p.2)
          (d ++ [(k, acc)]) =
        d ++ [(k, acc ++ vs)]
  | [], d, acc, _ => by simp
  | v :: vs', d, acc, h => by
    rw [List.map_cons, List.foldl_cons,
      show qsInsert (d ++ [(k, acc)]) (k, v).1 (k, v).2 = d ++ [(k, acc ++ [v])]
        from qsInsert_last d k acc v h,
      foldl_qsInsert_same_key k vs' d (acc ++ [v]) h, List.append_assoc,
      List.singleton_append]

/-- Folding the flattened pairs of a dict with distinct keys and nonempty
value lists rebuilds the dict. -/
theorem foldl_qsInsert_flatten :
    ∀ (m d : List (Str × List Str)),
      (m.map Prod.fst).Nodup → (∀ pr ∈ m, pr.2 ≠ []) →
      (∀ pr ∈ d, ∀ pr' ∈ m, pr.1 ≠ pr'.1) →
      (qsFlatten m).foldl (fun d p => qsInsert d p.1 p.2) d = d ++ m
  | [], d, _, _, _ => by simp [qsFlatten, cmap]
  | pr :: m', d, hnd, hne, hdisj => by
    obtain ⟨k, vs⟩ := pr
    rw [show qsFlatten ((k, vs) :: m') =
        vs.map (fun v => (k, v)) ++ qsFlatten m' from rfl, List.foldl_append]
    cases vs with
    | nil => exact absurd rfl (hne (k, []) (by simp))
    | cons v vs' =>
      have hdk : ∀ pr' ∈ d, pr'.1 ≠ k :=
        fun pr' hpr' => hdisj pr' hpr' (k, v :: vs') (by simp)
      rw [List.map_cons, List.foldl_cons,
        show qsInsert d (k, v).1 (k, v).2 = d ++ [(k, [v])] from qsInsert_new v hdk,
        foldl_qsInsert_same_key k vs' d [v] hdk,
        foldl_qsInsert_flatten m' (d ++ [(k, [v] ++ vs')])
          (by simpa using hnd.of_cons) (fun q hq => hne q (by simp [hq])) ?hd]
      · simp
      case hd =>
        intro q hq q' hq'
        rcases List.mem_append.mp hq with hq | hq
        · exact hdisj q hq q' (by simp [hq'])
        · rw [List.mem_singleton] at hq
          subst hq
          have : q'.1 ∈ m'.map Prod.fst := List.mem_map.mpr ⟨q', hq', rfl⟩
          intro he
          rw [List.map_cons] at hnd
          exact (List.nodup_cons.mp hnd).1 (he ▸ this)

/-- `parse_qs` with `keep_blank_values` inverts `urlencode` on dicts with
pairwise-distinct keys and nonempty value lists. -/
theorem parse_qs_urlencode (m : List (Str × List Str))
    (hnd : (m.map Prod.fst).Nodup) (hne : ∀ pr ∈ m, pr.2 ≠ []) :
    parse_qs true (urlencode m) = m := by
  unfold parse_qs
  rw [urlencode_eq_flatten, parse_qsl_encode,
    foldl_qsInsert_flatten m [] hnd hne (by simp)]
  simp

/-- Keys present after a `qsInsert` were present before, or are the new key. -/
theorem mem_qsInsert_keys {d : List (Str × List Str)} {k : Str} {v : Str}
    {x : Str} (h : x ∈ (qsInsert d k v).map Prod.fst) :
    x ∈ d.map Prod.fst ∨ x = k := by
  induction d with
  | nil =>
    simp only [qsInsert, List.map_cons, List.map_nil, List.mem_singleton] at h
    exact Or.inr h
  | cons p0 rest ih =>
    rw [qsInsert_cons] at h
    by_cases hk : p0.1 = k
    · rw [if_pos hk, List.map_cons] at h
      rcases List.mem_cons.mp h with h | h
      · exact Or.inl (by simp [h])
      · exact Or.inl (by simp [h])
    · rw [if_neg hk, List.map_cons] at h
      rcases List.mem_cons.mp h with h | h
      · exact Or.inl (by simp [h])
      · rcases ih h with h' | h'
        · exact Or.inl (by simp [h'])
        · exact Or.inr h'

/-- `qsInsert` preserves distinctness of keys. -/
theorem qsInsert_keys_nodup {d : List (Str × List Str)} (k : Str) (v : Str)
    (h : (d.map Prod.fst).Nodup) : ((qsInsert d k v).map Prod.fst).Nodup := by
  induction d with
  | nil => simp [qsInsert]
  | cons p0 rest ih =>
    rw [List.map_cons, List.nodup_cons] at h
    rw [qsInsert_cons]
    by_cases hk : p0.1 = k
    · rw [if_pos hk, List.map_cons, List.nodup_cons]
      exact h
    · rw [if_neg hk, List.map_cons, List.nodup_cons]
      refine ⟨fun hmem => ?_, ih h.2⟩
      rcases mem_qsInsert_keys hmem with h' | h'
      · exact h.1 h'
      · exact hk h'

/-- The keys of a `parse_qs` dict are pairwise distinct. -/
theorem parse_qs_keys_nodup (b : Bool) (qs : Str) :
    ((parse_qs b qs).map Prod.fst).Nodup := by
  unfold parse_qs
  have hstep : ∀ (pairs : List (Str × Str)) (d : List (Str × List Str)),
      (d.map Prod.fst).Nodup →
      ((pairs.foldl (fun d p => qsInsert d p.1 p.2) d).map Prod.fst).Nodup := by
    intro pairs
    induction pairs with
    | nil => exact fun _ h => h
    | cons p rest ih =>
      intro d h
      exact ih _ (qsInsert_keys_nodup p.1 p.2 h)
  exact hstep (parse_qsl b qs) [] (by simp)

/-- `qsInsert` keeps every value list nonempty. -/
theorem qsInsert_value_lists_ne_nil {d : List (Str × List Str)} (k : Str)
    (v : Str) (h : ∀ pr ∈ d, pr.2 ≠ []) : ∀ pr ∈ qsInsert d k v, pr.2 ≠ [] := by
  induction d with
  | nil =>
    intro pr hpr
    simp only [qsInsert, List.mem_singleton] at hpr
    subst hpr
    simp
  | cons p0 rest ih =>
    rw [qsInsert_cons]
    by_cases hk : p0.1 = k
    · rw [if_pos hk]
      intro pr hpr
      rcases List.mem_cons.mp hpr with rfl | hpr
      · simp
      · exact h pr (by simp [hpr])
    · rw [if_neg hk]
      intro pr hpr
      rcases List.mem_cons.mp hpr with rfl | hpr
      · exact h pr (by simp)
      · exact ih (fun q hq => h q (by simp [hq])) pr hpr

/-- Every value list of a `parse_qs` dict is nonempty. -/
theorem parse_qs_value_lists_ne_nil {b : Bool} {qs : Str} :
    ∀ pr ∈ parse_qs b qs, pr.2 ≠ [] := by
  unfold parse_qs
  have hstep : ∀ (pairs : List (Str × Str)) (d : List (Str × List Str)),
      (∀ pr ∈ d, pr.2 ≠ []) →
      ∀ pr ∈ pairs.foldl (fun d p => qsInsert d p.1 p.2) d, pr.2 ≠ [] := by
    intro pairs
    induction pairs with
    | nil => exact fun _ h => h
    | cons p rest ih =>
      intro d h
      exact ih _ (qsInsert_value_lists_ne_nil p.1 p.2 h)
  exact hstep (parse_qsl b qs) [] (by simp)

end News
namespace News

/-- `pyLower` is idempotent. -/
theorem pyLower_idem (s : Str) : pyLower (pyLower s) = pyLower s :=
  pyLower_of_all_fixed (fun _ hc => pyLower_fixed_of_mem hc)

/-- A map fixing every element of a list fixes the list. -/
theorem map_eq_self_of {α : Type} {f : α → α} :
    ∀ {l : List α}, (∀ x ∈ l, f x = x) → l.map f = l
  | [], _ => rfl
  | x :: t, h => by
    rw [List.map_cons, h x (by simp),
      map_eq_self_of (fun y hy => h y (by simp [hy]))]

/-- `dropWhile` is idempotent. -/
theorem dropWhile_self {α : Type} (p : α → Bool) :
    ∀ (l : List α), List.dropWhile p (List.dropWhile p l) = List.dropWhile p l
  | [] => rfl
  | a :: t => by
    rw [List.dropWhile_cons]
    split_ifs with h
    · exact dropWhile_self p t
    · rw [List.dropWhile_cons, if_neg h]

/-- `rstripSlash` returns a prefix of its argument. -/
theorem rstripSlash_front (s : Str) : rstripSlash s <+: s := by
  have h := (List.reverse_prefix).mpr
    (List.dropWhile_suffix (l := s.reverse) (· = '/'))
  rw [List.reverse_reverse] at h
  exact h

/-- `rstripSlash` is idempotent. -/
theorem rstripSlash_idem (s : Str) :
    rstripSlash (rstripSlash s) = rstripSlash s := by
  unfold rstripSlash
  rw [List.reverse_reverse]
  rw [dropWhile_self]

/-- Prepending a character commutes with `rstripSlash` when the stripped
tail is nonempty. -/
theorem rstripSlash_cons {t : Str} (c : Char) (h : rstripSlash t ≠ []) :
    rstripSlash (c :: t) = c :: rstripSlash t := by
  unfold rstripSlash at h ⊢
  rw [List.reverse_cons, List.dropWhile_append]
  have hne : (List.dropWhile (· = '/') t.reverse).isEmpty = false := by
    cases hd : List.dropWhile (· = '/') t.reverse
    · rw [hd] at h
      exact absurd rfl h
    · rfl
  rw [hne]
  simp

/-- The head of `rstripSlash` is the head of its argument. -/
theorem rstripSlash_head {c : Char} {t : Str} :
    rstripSlash (c :: t) = [] ∨ (rstripSlash (c :: t)).take 1 = [c] := by
  cases hr : rstripSlash (c :: t) with
  | nil => exact Or.inl rfl
  | cons d r =>
    right
    have hp := rstripSlash_front (c :: t)
    rw [hr] at hp
    obtain ⟨u, hu⟩ := hp
    rw [List.cons_append] at hu
    rw [show d = c from ((List.cons.injEq _ _ _ _).mp hu).1]
    rfl

/-- Membership survives `rstripSlash`. -/
theorem mem_rstripSlash {s : Str} {c : Char} (h : c ∈ rstripSlash s) : c ∈ s :=
  (rstripSlash_front s).sublist.mem h

/-- `isAsciiAlpha` as code-point ranges. -/
theorem isAsciiAlpha_iff {c : Char} :
    isAsciiAlpha c = true ↔
      (65 ≤ c.toNat ∧ c.toNat ≤ 90) ∨ (97 ≤ c.toNat ∧ c.toNat ≤ 122) := by
  unfold isAsciiAlpha
  simp only [Bool.or_eq_true, decide_eq_true_eq, char_le_iff_toNat,
    show ('A' : Char).toNat = 65 from rfl, show ('Z' : Char).toNat = 90 from rfl,
    show ('a' : Char).toNat = 97 from rfl, show ('z' : Char).toNat = 122 from rfl]

/-- `isSchemeChar` as code points. -/
theorem isSchemeChar_iff {c : Char} :
    isSchemeChar c = true ↔
      (65 ≤ c.toNat ∧ c.toNat ≤ 90) ∨ (97 ≤ c.toNat ∧ c.toNat ≤ 122) ∨
      (48 ≤ c.toNat ∧ c.toNat ≤ 57) ∨ c.toNat = 43 ∨ c.toNat = 45 ∨
      c.toNat = 46 := by
  unfold isSchemeChar isDigitCh
  simp only [Bool.or_eq_true, decide_eq_true_eq, char_le_iff_toNat,
    char_eq_iff_toNat, isAsciiAlpha_iff,
    show ('0' : Char).toNat = 48 from rfl, show ('9' : Char).toNat = 57 from rfl,
    show ('+' : Char).toNat = 43 from rfl, show ('-' : Char).toNat = 45 from rfl,
    show ('.' : Char).toNat = 46 from rfl]
  omega

/-- `isNetlocDelim` as code points. -/
theorem isNetlocDelim_iff {c : Char} :
    isNetlocDelim c = true ↔ c.toNat = 47 ∨ c.toNat = 63 ∨ c.toNat = 35 := by
  unfold isNetlocDelim
  simp only [Bool.or_eq_true, decide_eq_true_eq, char_eq_iff_toNat,
    show ('/' : Char).toNat = 47 from rfl, show ('?' : Char).toNat = 63 from rfl,
    show ('#' : Char).toNat = 35 from rfl]
  omega

/-- `isUnsafeUrlByte` as code points. -/
theorem isUnsafeUrlByte_iff {c : Char} :
    isUnsafeUrlByte c = true ↔ c.toNat = 9 ∨ c.toNat = 13 ∨ c.toNat = 10 := by
  unfold isUnsafeUrlByte
  simp only [Bool.or_eq_true, decide_eq_true_eq, char_eq_iff_toNat,
    show ('\t' : Char).toNat = 9 from rfl, show ('\r' : Char).toNat = 13 from rfl,
    show ('\n' : Char).toNat = 10 from rfl]
  omega

/-- `asciiLower` either fixes the character or shifts an uppercase letter. -/
theorem asciiLower_toNat_cases (c : Char) :
    (asciiLower c).toNat = c.toNat ∨
      ((asciiLower c).toNat = c.toNat + 32 ∧ 65 ≤ c.toNat ∧ c.toNat ≤ 90) := by
  rw [asciiLower_toNat]
  split_ifs with h
  · exact Or.inr ⟨rfl, h⟩
  · exact Or.inl rfl

/-- `asciiLower` preserves scheme characters. -/
theorem asciiLower_isSchemeChar {c : Char} (h : isSchemeChar c = true) :
    isSchemeChar (asciiLower c) = true := by
  rw [isSchemeChar_iff] at h ⊢
  rcases asciiLower_toNat_cases c with hc | ⟨hc, h1, h2⟩ <;> omega

/-- `asciiLower` preserves ASCII letters. -/
theorem asciiLower_isAsciiAlpha {c : Char} (h : isAsciiAlpha c = true) :
    isAsciiAlpha (asciiLower c) = true := by
  rw [isAsciiAlpha_iff] at h ⊢
  rcases asciiLower_toNat_cases c with hc | ⟨hc, h1, h2⟩ <;> omega

/-- `asciiLower` preserves non-delimiters. -/
theorem asciiLower_not_delim {c : Char} (h : isNetlocDelim c = false) :
    isNetlocDelim (asciiLower c) = false := by
  refine Bool.eq_false_iff.mpr (fun htrue => ?_)
  rw [isNetlocDelim_iff] at htrue
  have h' : ¬ (c.toNat = 47 ∨ c.toNat = 63 ∨ c.toNat = 35) := by
    intro hh
    rw [isNetlocDelim_iff.mpr hh] at h
    exact absurd h (by simp)
  rcases asciiLower_toNat_cases c with hc | ⟨hc, h1, h2⟩ <;> omega

/-- `asciiLower` preserves safe bytes. -/
theorem asciiLower_not_unsafe {c : Char} (h : isUnsafeUrlByte c = false) :
    isUnsafeUrlByte (asciiLower c) = false := by
  refine Bool.eq_false_iff.mpr (fun htrue => ?_)
  rw [isUnsafeUrlByte_iff] at htrue
  have h' : ¬ (c.toNat = 9 ∨ c.toNat = 13 ∨ c.toNat = 10) := by
    intro hh
    rw [isUnsafeUrlByte_iff.mpr hh] at h
    exact absurd h (by simp)
  rcases asciiLower_toNat_cases c with hc | ⟨hc, h1, h2⟩ <;> omega

/-- `asciiLower` creates no bracket characters. -/
theorem asciiLower_eq_bracket {c b : Char}
    (hb : b.toNat = 91 ∨ b.toNat = 93) : asciiLower c = b ↔ c = b := by
  constructor
  · intro h
    rw [char_eq_iff_toNat] at h ⊢
    rcases asciiLower_toNat_cases c with hc | ⟨hc, h1, h2⟩ <;> omega
  · intro h
    subst h
    apply char_eq_of_toNat_eq
    rcases asciiLower_toNat_cases c with hc | ⟨hc, h1, h2⟩ <;> omega

/-- Bracket membership is invariant under `pyLower`. -/
theorem mem_pyLower_bracket {b : Char} (hb : b.toNat = 91 ∨ b.toNat = 93)
    (s : Str) : b ∈ pyLower s ↔ b ∈ s := by
  unfold pyLower
  rw [List.mem_map]
  constructor
  · rintro ⟨d, hd, he⟩
    rw [(asciiLower_eq_bracket hb).mp he] at hd
    exact hd
  · intro h
    exact ⟨b, h, (asciiLower_eq_bracket hb).mpr rfl⟩

end News
namespace News

/-- Characters surviving `sanitizeUrl` are never unsafe bytes. -/
theorem sanitizeUrl_clean {url : Str} : ∀ c ∈ sanitizeUrl url,
    isUnsafeUrlByte c = false := by
  intro c hc
  unfold sanitizeUrl at hc
  have h := List.of_mem_filter hc
  simpa using h

/-- Dropping the `takeWhile` prefix leaves the `dropWhile` suffix. -/
theorem drop_takeWhile_length {α : Type} (p : α → Bool) (l : List α) :
    l.drop (l.takeWhile p).length = l.dropWhile p := by
  have h := List.drop_left (l.takeWhile p) (l.dropWhile p)
  rwa [List.takeWhile_append_dropWhile] at h

/-- `dropWhile` is empty or starts with a failing element. -/
theorem dropWhile_cases {α : Type} (p : α → Bool) :
    ∀ (l : List α), List.dropWhile p l = [] ∨
      ∃ d t, List.dropWhile p l = d :: t ∧ p d = false
  | [] => Or.inl rfl
  | a :: t => by
    rw [List.dropWhile_cons]
    split_ifs with h
    · exact dropWhile_cases p t
    · exact Or.inr ⟨a, t, rfl, eq_false_of_ne_true h⟩

/-- A list containing a failing element has a strictly shorter
`takeWhile` prefix. -/
theorem takeWhile_length_lt {α : Type} {a : α} {l : List α} {p : α → Bool}
    (h : a ∈ l) (hp : p a = false) : (l.takeWhile p).length < l.length := by
  rcases Nat.lt_or_ge (l.takeWhile p).length l.length with hlt | hge
  · exact hlt
  · exfalso
    have hle : (l.takeWhile p).length ≤ l.length :=
      (List.takeWhile_sublist p).length_le
    have heq : l.takeWhile p = l :=
      (List.takeWhile_sublist p).eq_of_length (le_antisymm hle hge)
    have h' := List.mem_takeWhile_imp (x := a) (by rw [heq]; exact h)
    rw [hp] at h'
    exact absurd h' (by simp)

/-- The scheme produced by `splitScheme` is empty or a lower-cased word of
scheme characters starting with a letter. -/
theorem splitScheme_fst_props (url : Str) :
    (splitScheme url).1 = [] ∨
      ((splitScheme url).1 ≠ [] ∧ (splitScheme url).1.all isSchemeChar = true ∧
        isAsciiAlpha ((splitScheme url).1.headD ' ') = true ∧
        pyLower (splitScheme url).1 = (splitScheme url).1) := by
  unfold splitScheme
  simp only []
  split_ifs with h
  · right
    obtain ⟨hlen, hne, halpha, hall⟩ := h
    refine ⟨by simpa [pyLower] using hne, ?_, ?_, pyLower_idem _⟩
    · simp only [pyLower, List.all_eq_true] at hall ⊢
      intro c hc
      obtain ⟨d, hd, rfl⟩ := List.mem_map.mp hc
      exact asciiLower_isSchemeChar (hall d hd)
    · cases hp : url.takeWhile (· ≠ ':') with
      | nil =>
        rw [hp] at hne
        exact absurd rfl hne
      | cons c t =>
        rw [hp] at halpha
        show isAsciiAlpha (asciiLower c) = true
        exact asciiLower_isAsciiAlpha halpha
  · exact Or.inl rfl

/-- The remainder after `splitScheme` draws its characters from the input. -/
theorem splitScheme_snd_sub (url : Str) :
    ∀ c ∈ (splitScheme url).2, c ∈ url := by
  unfold splitScheme
  simp only []
  split_ifs with h
  · exact fun c hc => List.mem_of_mem_drop hc
  · exact fun c hc => hc

/-- Structure of a successful `splitNetloc`: delimiter-free netloc drawn
from the input, balanced brackets, remainder drawn from the input and — when
a netloc was actually cut — empty or delimiter-headed. -/
theorem splitNetloc_eq (rest : Str) :
    splitNetloc rest =
      if rest.take 2 = ['/', '/'] then
        if (('[' ∈ (rest.drop 2).takeWhile (fun c => ¬ isNetlocDelim c)) ∧
              (']' ∉ (rest.drop 2).takeWhile (fun c => ¬ isNetlocDelim c))) ∨
            ((']' ∈ (rest.drop 2).takeWhile (fun c => ¬ isNetlocDelim c)) ∧
              ('[' ∉ (rest.drop 2).takeWhile (fun c => ¬ isNetlocDelim c))) then
          none
        else
          some ((rest.drop 2).takeWhile (fun c => ¬ isNetlocDelim c),
            (rest.drop 2).drop
              (((rest.drop 2).takeWhile (fun c => ¬ isNetlocDelim c)).length))
      else some ([], rest) := rfl

theorem splitNetloc_props {rest : Str} {nl : Str × Str}
    (h : splitNetloc rest = some nl) :
    (∀ c ∈ nl.1, isNetlocDelim c = false ∧ c ∈ rest) ∧
    ¬ ((('[' ∈ nl.1) ∧ (']' ∉ nl.1)) ∨ ((']' ∈ nl.1) ∧ ('[' ∉ nl.1))) ∧
    (∀ c ∈ nl.2, c ∈ rest) ∧
    (nl.1 ≠ [] → nl.2 = [] ∨ ∃ d t, nl.2 = d :: t ∧ isNetlocDelim d = true) := by
  rw [splitNetloc_eq] at h
  split_ifs at h with h2 h3
  · rw [Option.some.injEq] at h
    subst h
    refine ⟨?_, h3, ?_, ?_⟩
    · intro c hc
      constructor
      · have h' := List.mem_takeWhile_imp hc
        simpa using h'
      · exact List.mem_of_mem_drop (List.Sublist.mem hc (List.takeWhile_sublist _))
    · intro c hc
      exact List.mem_of_mem_drop (List.mem_of_mem_drop hc)
    · intro _
      rw [drop_takeWhile_length]
      rcases dropWhile_cases _ (rest.drop 2) with hd | ⟨d, t, hd, hpd⟩
      · exact Or.inl hd
      · refine Or.inr ⟨d, t, hd, ?_⟩
        simpa using hpd
  · rw [Option.some.injEq] at h
    subst h
    exact ⟨by simp, by simp, fun c hc => hc, fun hne => absurd rfl hne⟩

/-- `splitParamsPart` with no semicolon is the identity. -/
theorem splitParamsPart_no_semi {path : Str} (h : ';' ∉ path) :
    splitParamsPart path = (path, []) := by
  unfold splitParamsPart
  rw [if_neg h]

/-- `splitParamsPart` on the empty path. -/
theorem splitParamsPart_nil : splitParamsPart [] = ([], []) := by
  simp [splitParamsPart]

/-- The path half of `splitParamsPart` draws its characters from the
input path. -/
theorem splitParamsPart_fst_subset {path : Str} {c : Char}
    (h : c ∈ (splitParamsPart path).1) : c ∈ path := by
  unfold splitParamsPart at h
  simp only [] at h
  split_ifs at h with h1 h2 h3
  · rcases List.mem_append.mp h with h | h
    · exact List.Sublist.mem h (List.take_sublist _ _)
    · have h' := List.Sublist.mem h (List.takeWhile_sublist _)
      rw [List.mem_reverse] at h'
      have h'' := List.Sublist.mem h' (List.takeWhile_sublist _)
      rw [List.mem_reverse] at h''
      exact h''
  · exact h
  · exact List.Sublist.mem h (List.takeWhile_sublist _)
  · exact h

/-- The path half of `splitParamsPart` is empty or keeps the input head. -/
theorem splitParamsPart_fst_head (c : Char) (t : Str) :
    (splitParamsPart (c :: t)).1 = [] ∨
      ((splitParamsPart (c :: t)).1).take 1 = [c] := by
  unfold splitParamsPart
  simp only []
  split_ifs with h1 h2 h3
  · right
    have hmem : '/' ∈ (c :: t).reverse := List.mem_reverse.mpr h2
    have hlt : (((c :: t).reverse.takeWhile (· ≠ '/')).reverse).length <
        (c :: t).length := by
      rw [List.length_reverse]
      have h' := takeWhile_length_lt hmem (p := (· ≠ '/')) (by decide)
      rwa [List.length_reverse] at h'
    cases hk : (c :: t).length - (((c :: t).reverse.takeWhile (· ≠ '/')).reverse).length with
    | zero => omega
    | succ n =>
      rfl
  · exact Or.inr rfl
  · rw [List.takeWhile_cons]
    split_ifs with hc
    · exact Or.inr rfl
    · exact Or.inl rfl
  · exact Or.inr rfl

/-- The path half of the `uses_params`-guarded split of an empty path is
empty. -/
theorem params_fst_nil (cond : Prop) [Decidable cond] :
    (if cond then splitParamsPart [] else (([] : Str), ([] : Str))).1 = [] := by
  split_ifs with h
  · rw [splitParamsPart_nil]
  · rfl

end News
namespace News

/-- `urlparse`, with its `let` bindings expanded. -/
theorem urlparse_eq (rawUrl : Str) :
    urlparse rawUrl =
      match splitNetloc (splitScheme (sanitizeUrl rawUrl)).2 with
      | none => none
      | some nl =>
        some ⟨(splitScheme (sanitizeUrl rawUrl)).1, nl.1,
          (if (splitScheme (sanitizeUrl rawUrl)).1 ∈ uses_params then
              splitParamsPart (breakAtFirst '?' (breakAtFirst '#' nl.2).1).1
            else ((breakAtFirst '?' (breakAtFirst '#' nl.2).1).1, [])).1,
          (if (splitScheme (sanitizeUrl rawUrl)).1 ∈ uses_params then
              splitParamsPart (breakAtFirst '?' (breakAtFirst '#' nl.2).1).1
            else ((breakAtFirst '?' (breakAtFirst '#' nl.2).1).1, [])).2,
          (breakAtFirst '?' (breakAtFirst '#' nl.2).1).2,
          (breakAtFirst '#' nl.2).2⟩ := rfl

/-- Invariants of every successful `urlparse`: the scheme is a lower-cased
letter-headed word of scheme characters (or empty), the netloc is free of
delimiters and unsafe bytes with balanced brackets, the path contains no
`#`, `?` or unsafe byte, and a nonempty netloc forces an absolute or empty
path. -/
theorem urlparse_inv {url : Str} {p : UrlParts} (h : urlparse url = some p) :
    (p.scheme ≠ [] → p.scheme.all isSchemeChar = true ∧
      isAsciiAlpha (p.scheme.headD ' ') = true ∧ pyLower p.scheme = p.scheme) ∧
    (∀ c ∈ p.netloc, isNetlocDelim c = false ∧ isUnsafeUrlByte c = false) ∧
    ¬ ((('[' ∈ p.netloc) ∧ (']' ∉ p.netloc)) ∨
        ((']' ∈ p.netloc) ∧ ('[' ∉ p.netloc))) ∧
    (∀ c ∈ p.path, c ≠ '#' ∧ c ≠ '?' ∧ isUnsafeUrlByte c = false) ∧
    (p.netloc ≠ [] → p.path = [] ∨ p.path.take 1 = ['/']) := by
  rw [urlparse_eq] at h
  cases hnl : splitNetloc (splitScheme (sanitizeUrl url)).2 with
  | none =>
    rw [hnl] at h
    exact absurd h (by simp)
  | some nl =>
    rw [hnl] at h
    simp only [Option.some.injEq] at h
    subst h
    obtain ⟨hnd, hbr, hrem, hhead⟩ := splitNetloc_props hnl
    refine ⟨?_, ?_, hbr, ?_, ?_⟩
    · intro hne
      rcases splitScheme_fst_props (sanitizeUrl url) with h0 | h0
      · exact absurd h0 hne
      · exact ⟨h0.2.1, h0.2.2.1, h0.2.2.2⟩
    · intro c hc
      refine ⟨(hnd c hc).1, ?_⟩
      exact sanitizeUrl_clean c (splitScheme_snd_sub _ c (hnd c hc).2)
    · intro c hc
      have hbq : c ∈ (breakAtFirst '?' (breakAtFirst '#' nl.2).1).1 := by
        by_cases hup : (splitScheme (sanitizeUrl url)).1 ∈ uses_params
        · rw [if_pos hup] at hc
          exact splitParamsPart_fst_subset hc
        · rw [if_neg hup] at hc
          exact hc
      have hbf : c ∈ (breakAtFirst '#' nl.2).1 :=
        List.Sublist.mem hbq (List.takeWhile_sublist _)
      refine ⟨?_, ?_, ?_⟩
      · have h4 := List.mem_takeWhile_imp
          (show c ∈ List.takeWhile (· ≠ '#') nl.2 from hbf)
        simpa using h4
      · have h5 := List.mem_takeWhile_imp
          (show c ∈ List.takeWhile (· ≠ '?') (breakAtFirst '#' nl.2).1 from hbq)
        simpa using h5
      · have h6 : c ∈ nl.2 :=
          List.Sublist.mem
            (show c ∈ List.takeWhile (· ≠ '#') nl.2 from hbf)
            (List.takeWhile_sublist _)
        exact sanitizeUrl_clean c (splitScheme_snd_sub _ c (hrem c h6))
    · intro hne
      rcases hhead hne with h7 | ⟨d, t, h7, hd⟩
      · left
        show (if (splitScheme (sanitizeUrl url)).1 ∈ uses_params then
            splitParamsPart (breakAtFirst '?' (breakAtFirst '#' nl.2).1).1
          else ((breakAtFirst '?' (breakAtFirst '#' nl.2).1).1, [])).1 = []
        rw [h7]
        exact params_fst_nil _
      · have hd' := isNetlocDelim_iff.mp hd
        rcases hd' with hd' | hd' | hd'
        · have hds : d = '/' :=
            char_eq_of_toNat_eq
              (hd'.trans (show (47 : Nat) = ('/' : Char).toNat from rfl))
          subst hds
          have hbf1 : (breakAtFirst '#' ('/' :: t)).1 =
              '/' :: t.takeWhile (· ≠ '#') := by
            show List.takeWhile (· ≠ '#') ('/' :: t) = _
            rw [List.takeWhile_cons, if_pos (by decide)]
          show ((if (splitScheme (sanitizeUrl url)).1 ∈ uses_params then
              splitParamsPart (breakAtFirst '?' (breakAtFirst '#' nl.2).1).1
            else ((breakAtFirst '?' (breakAtFirst '#' nl.2).1).1, [])).1) = [] ∨
            ((if (splitScheme (sanitizeUrl url)).1 ∈ uses_params then
              splitParamsPart (breakAtFirst '?' (breakAtFirst '#' nl.2).1).1
            else ((breakAtFirst '?' (breakAtFirst '#' nl.2).1).1, [])).1).take 1 =
              ['/']
          rw [h7, hbf1]
          have hbq1 : (breakAtFirst '?'
              ('/' :: t.takeWhile (· ≠ '#'))).1 =
              '/' :: (t.takeWhile (· ≠ '#')).takeWhile (· ≠ '?') := by
            show List.takeWhile (· ≠ '?') ('/' :: t.takeWhile (· ≠ '#')) = _
            rw [List.takeWhile_cons, if_pos (by decide)]
          rw [hbq1]
          by_cases hup : (splitScheme (sanitizeUrl url)).1 ∈ uses_params
          · rw [if_pos hup]
            exact splitParamsPart_fst_head '/' _
          · rw [if_neg hup]
            exact Or.inr rfl
        · have hds : d = '?' :=
            char_eq_of_toNat_eq
              (hd'.trans (show (63 : Nat) = ('?' : Char).toNat from rfl))
          subst hds
          left
          show (if (splitScheme (sanitizeUrl url)).1 ∈ uses_params then
              splitParamsPart (breakAtFirst '?' (breakAtFirst '#' nl.2).1).1
            else ((breakAtFirst '?' (breakAtFirst '#' nl.2).1).1, [])).1 = []
          have hbf1 : (breakAtFirst '#' ('?' :: t)).1 =
              '?' :: t.takeWhile (· ≠ '#') := by
            show List.takeWhile (· ≠ '#') ('?' :: t) = _
            rw [List.takeWhile_cons, if_pos (by decide)]
          rw [h7, hbf1]
          have hbq1 : (breakAtFirst '?'
              ('?' :: t.takeWhile (· ≠ '#'))).1 = [] := by
            show List.takeWhile (· ≠ '?') ('?' :: t.takeWhile (· ≠ '#')) = _
            rw [List.takeWhile_cons, if_neg (by decide)]
          rw [hbq1]
          exact params_fst_nil _
        · have hds : d = '#' :=
            char_eq_of_toNat_eq
              (hd'.trans (show (35 : Nat) = ('#' : Char).toNat from rfl))
          subst hds
          left
          show (if (splitScheme (sanitizeUrl url)).1 ∈ uses_params then
              splitParamsPart (breakAtFirst '?' (breakAtFirst '#' nl.2).1).1
            else ((breakAtFirst '?' (breakAtFirst '#' nl.2).1).1, [])).1 = []
          have hbf1 : (breakAtFirst '#' ('#' :: t)).1 = [] := by
            show List.takeWhile (· ≠ '#') ('#' :: t) = _
            rw [List.takeWhile_cons, if_neg (by decide)]
          rw [h7, hbf1]
          exact params_fst_nil _

end News
namespace News

/-- `takeWhile` over a satisfying prefix followed by a failing element. -/
theorem takeWhile_append_cons {α : Type} {p : α → Bool} :
    ∀ (w : List α) (a : α) (l : List α), (∀ c ∈ w, p c = true) → p a = false →
      (w ++ a :: l).takeWhile p = w
  | [], a, l, _, ha => by
    rw [List.nil_append, List.takeWhile_cons, if_neg (by simp [ha])]
  | c :: w', a, l, h, ha => by
    rw [List.cons_append, List.takeWhile_cons, if_pos (h c (by simp)),
      takeWhile_append_cons w' a l (fun d hd => h d (by simp [hd])) ha]

/-- `breakAtFirst` when the separator never occurs. -/
theorem breakAtFirst_no_sep {sep : Char} {l : Str} (h : ∀ c ∈ l, c ≠ sep) :
    breakAtFirst sep l = (l, []) := by
  unfold breakAtFirst
  simp only []
  have htw : l.takeWhile (· ≠ sep) = l :=
    List.takeWhile_eq_self_iff.mpr (fun c hc => by simp [h c hc])
  rw [htw]
  rw [List.drop_eq_nil_of_le (by omega)]

/-- `breakAtFirst` at the first separator occurrence. -/
theorem breakAtFirst_split {sep : Char} {w l : Str} (h : ∀ c ∈ w, c ≠ sep) :
    breakAtFirst sep (w ++ sep :: l) = (w, l) := by
  unfold breakAtFirst
  simp only []
  have htw : (w ++ sep :: l).takeWhile (· ≠ sep) = w :=
    takeWhile_append_cons w sep l (fun c hc => by simp [h c hc]) (by simp)
  rw [htw]
  have hd : (w ++ sep :: l).drop (w.length + 1) = l := by
    rw [show w ++ sep :: l = (w ++ [sep]) ++ l by simp,
      show w.length + 1 = (w ++ [sep]).length by simp]
    exact List.drop_left _ _
  rw [hd]

/-- `splitNetloc` on a `//`-headed input whose netloc segment is free of
delimiters, has balanced brackets, and is followed by a delimiter (or
nothing). -/
theorem splitNetloc_exact {netloc rest' : Str}
    (hn : ∀ c ∈ netloc, isNetlocDelim c = false)
    (hbr : ¬ ((('[' ∈ netloc) ∧ (']' ∉ netloc)) ∨
        ((']' ∈ netloc) ∧ ('[' ∉ netloc))))
    (hr : rest' = [] ∨ ∃ d t, rest' = d :: t ∧ isNetlocDelim d = true) :
    splitNetloc ('/' :: '/' :: (netloc ++ rest')) = some (netloc, rest') := by
  rw [splitNetloc_eq]
  rw [if_pos (show List.take 2 ('/' :: '/' :: (netloc ++ rest')) = ['/', '/']
    from rfl)]
  rw [show ('/' :: '/' :: (netloc ++ rest')).drop 2 = netloc ++ rest' from rfl]
  have htw : (netloc ++ rest').takeWhile (fun c => ¬ isNetlocDelim c) = netloc := by
    rcases hr with rfl | ⟨d, t, rfl, hd⟩
    · rw [List.append_nil]
      exact List.takeWhile_eq_self_iff.mpr (fun c hc => by simp [hn c hc])
    · exact takeWhile_append_cons netloc d t (fun c hc => by simp [hn c hc])
        (by simp [hd])
  rw [htw, if_neg hbr, List.drop_left]

/-- `splitScheme` on an explicit `scheme:rest` with a well-formed scheme. -/
theorem splitScheme_exact {scheme rest : Str}
    (hs : scheme ≠ []) (hsall : scheme.all isSchemeChar = true)
    (hsalpha : isAsciiAlpha (scheme.headD ' ') = true)
    (hslow : pyLower scheme = scheme) :
    splitScheme (scheme ++ ':' :: rest) = (scheme, rest) := by
  unfold splitScheme
  simp only []
  have htw : (scheme ++ ':' :: rest).takeWhile (· ≠ ':') = scheme := by
    refine takeWhile_append_cons scheme ':' rest (fun c hc => ?_) (by simp)
    have hc' := List.all_eq_true.mp hsall c hc
    rw [isSchemeChar_iff] at hc'
    simp only [decide_eq_true_eq]
    intro he
    rw [char_eq_iff_toNat, show (':' : Char).toNat = 58 from rfl] at he
    omega
  rw [htw]
  rw [if_pos ⟨by simp [List.length_append], hs, hsalpha, hsall⟩]
  have hd : (scheme ++ ':' :: rest).drop (scheme.length + 1) = rest := by
    rw [show scheme ++ ':' :: rest = (scheme ++ [':']) ++ rest by simp,
      show scheme.length + 1 = (scheme ++ [':']).length by simp]
    exact List.drop_left _ _
  rw [hslow, hd]

/-- `sanitizeUrl` fixes a string headed by a printable character with no
unsafe bytes. -/
theorem sanitizeUrl_cons {c : Char} {t : Str} (hc : 0x20 < c.toNat)
    (hall : ∀ d ∈ c :: t, isUnsafeUrlByte d = false) :
    sanitizeUrl (c :: t) = c :: t := by
  unfold sanitizeUrl
  rw [List.dropWhile_cons, if_neg (by simp [isC0OrSpace]; omega)]
  exact List.filter_eq_self.mpr (fun a ha => by simp [hall a ha])

/-- The fragment split is trivial on a hash-free path-plus-query tail. -/
theorem breakAtFirst_hash_tail (path query : Str)
    (hp2 : ∀ c ∈ path, c ≠ '#')
    (hq : ∀ c ∈ query, c ≠ '#') :
    breakAtFirst '#' (path ++ (if query = [] then [] else '?' :: query)) =
      (path ++ (if query = [] then [] else '?' :: query), []) := by
  refine breakAtFirst_no_sep (fun c hc => ?_)
  rcases List.mem_append.mp hc with hc | hc
  · exact hp2 c hc
  · by_cases hqe : query = []
    · rw [if_pos hqe] at hc
      exact absurd hc (List.not_mem_nil c)
    · rw [if_neg hqe] at hc
      rcases List.mem_cons.mp hc with rfl | hc
      · decide
      · exact hq c hc

/-- The query split recovers the query from a path-plus-query tail. -/
theorem breakAtFirst_query_tail (path query : Str)
    (hp2 : ∀ c ∈ path, c ≠ '?') :
    breakAtFirst '?' (path ++ (if query = [] then [] else '?' :: query)) =
      (path, query) := by
  by_cases hqe : query = []
  · rw [if_pos hqe, List.append_nil, hqe]
    exact breakAtFirst_no_sep hp2
  · rw [if_neg hqe]
    exact breakAtFirst_split hp2

end News
namespace News

/-- Round trip: parsing an `urlunsplit` of a well-formed scheme, netloc,
absolute path and clean query (no fragment) recovers the components. -/
theorem urlparse_unsplit_abs
    (scheme netloc path' query : Str)
    (hs : scheme ≠ []) (hsall : scheme.all isSchemeChar = true)
    (hsalpha : isAsciiAlpha (scheme.headD ' ') = true)
    (hslow : pyLower scheme = scheme)
    (hn : ∀ c ∈ netloc, isNetlocDelim c = false)
    (hnu : ∀ c ∈ netloc, isUnsafeUrlByte c = false)
    (hbr : ¬ ((('[' ∈ netloc) ∧ (']' ∉ netloc)) ∨
        ((']' ∈ netloc) ∧ ('[' ∉ netloc))))
    (hp2 : ∀ c ∈ ('/' :: path' : Str), c ≠ '#' ∧ c ≠ '?')
    (hpu : ∀ c ∈ ('/' :: path' : Str), isUnsafeUrlByte c = false)
    (hp3 : ';' ∉ ('/' :: path' : Str))
    (hq : ∀ c ∈ query, c ≠ '#')
    (hqu : ∀ c ∈ query, isUnsafeUrlByte c = false)
    (hA : netloc ≠ [] ∨
      (scheme ∈ uses_netloc ∧ ('/' :: path' : Str).take 2 ≠ ['/', '/'])) :
    urlparse (urlunsplit scheme netloc ('/' :: path') query []) =
      some ⟨scheme, netloc, '/' :: path', [], query, []⟩ := by
  have hcond : netloc ≠ [] ∨ (scheme ≠ [] ∧ scheme ∈ uses_netloc ∧
      ('/' :: path' : Str).take 2 ≠ ['/', '/']) :=
    hA.imp_right (fun h => ⟨hs, h.1, h.2⟩)
  have hs32 : 0x20 < (scheme.headD ' ').toNat := by
    have h := isAsciiAlpha_iff.mp hsalpha
    omega
  by_cases hqe : query = []
  · subst hqe
    have hO : urlunsplit scheme netloc ('/' :: path') [] [] =
        scheme ++ ':' :: '/' :: '/' :: (netloc ++ ('/' :: path')) := by
      unfold urlunsplit
      simp only []
      rw [if_pos hcond,
        if_neg (show ¬ (('/' :: path' : Str) ≠ [] ∧
            ('/' :: path' : Str).take 1 ≠ ['/']) from fun hcon => hcon.2 rfl),
        if_pos hs, if_neg (by simp), if_neg (by simp)]
    rw [hO, urlparse_eq]
    have hsan : sanitizeUrl (scheme ++ ':' :: '/' :: '/' ::
        (netloc ++ ('/' :: path'))) =
        scheme ++ ':' :: '/' :: '/' :: (netloc ++ ('/' :: path')) := by
      cases scheme with
      | nil => exact absurd rfl hs
      | cons s0 s1 =>
        rw [List.cons_append]
        refine sanitizeUrl_cons ?_ ?_
        · simpa using hs32
        · intro d hd
          rw [← List.cons_append] at hd
          rcases List.mem_append.mp hd with hd | hd
          · have hd' := List.all_eq_true.mp hsall d hd
            rw [isSchemeChar_iff] at hd'
            refine Bool.eq_false_iff.mpr (fun ht => ?_)
            rw [isUnsafeUrlByte_iff] at ht
            omega
          · rcases List.mem_cons.mp hd with rfl | hd
            · decide
            rcases List.mem_cons.mp hd with rfl | hd
            · decide
            rcases List.mem_cons.mp hd with rfl | hd
            · decide
            rcases List.mem_append.mp hd with hd | hd
            · exact hnu d hd
            · exact hpu d hd
    rw [hsan, splitScheme_exact hs hsall hsalpha hslow]
    simp only []
    rw [splitNetloc_exact hn hbr (Or.inr ⟨'/', path', rfl, by decide⟩)]
    simp only []
    rw [breakAtFirst_no_sep (fun c hc => (hp2 c hc).1)]
    simp only []
    rw [breakAtFirst_no_sep (fun c hc => (hp2 c hc).2)]
    simp only []
    rw [splitParamsPart_no_semi hp3, ite_self]
  · have hO : urlunsplit scheme netloc ('/' :: path') query [] =
        scheme ++ ':' :: '/' :: '/' ::
          (netloc ++ ('/' :: (path' ++ '?' :: query))) := by
      unfold urlunsplit
      simp only []
      rw [if_pos hcond,
        if_neg (show ¬ (('/' :: path' : Str) ≠ [] ∧
            ('/' :: path' : Str).take 1 ≠ ['/']) from fun hcon => hcon.2 rfl),
        if_pos hs, if_pos hqe, if_neg (by simp)]
      simp [List.append_assoc]
    rw [hO, urlparse_eq]
    have htail : ∀ c ∈ ('/' :: (path' ++ '?' :: query) : Str),
        c ≠ '#' ∧ isUnsafeUrlByte c = false := by
      intro c hc
      rcases List.mem_cons.mp hc with rfl | hc
      · exact ⟨by decide, by decide⟩
      rcases List.mem_append.mp hc with hc | hc
      · exact ⟨(hp2 c (by simp [hc])).1, hpu c (by simp [hc])⟩
      rcases List.mem_cons.mp hc with rfl | hc
      · exact ⟨by decide, by decide⟩
      · exact ⟨hq c hc, hqu c hc⟩
    have hsan : sanitizeUrl (scheme ++ ':' :: '/' :: '/' ::
        (netloc ++ ('/' :: (path' ++ '?' :: query)))) =
        scheme ++ ':' :: '/' :: '/' ::
          (netloc ++ ('/' :: (path' ++ '?' :: query))) := by
      cases scheme with
      | nil => exact absurd rfl hs
      | cons s0 s1 =>
        rw [List.cons_append]
        refine sanitizeUrl_cons ?_ ?_
        · simpa using hs32
        · intro d hd
          rw [← List.cons_append] at hd
          rcases List.mem_append.mp hd with hd | hd
          · have hd' := List.all_eq_true.mp hsall d hd
            rw [isSchemeChar_iff] at hd'
            refine Bool.eq_false_iff.mpr (fun ht => ?_)
            rw [isUnsafeUrlByte_iff] at ht
            omega
          · rcases List.mem_cons.mp hd with rfl | hd
            · decide
            rcases List.mem_cons.mp hd with rfl | hd
            · decide
            rcases List.mem_cons.mp hd with rfl | hd
            · decide
            rcases List.mem_append.mp hd with hd | hd
            · exact hnu d hd
            · exact (htail d hd).2
    rw [hsan, splitScheme_exact hs hsall hsalpha hslow]
    simp only []
    rw [splitNetloc_exact hn hbr
      (Or.inr ⟨'/', path' ++ '?' :: query, rfl, by decide⟩)]
    simp only []
    rw [breakAtFirst_no_sep (fun c hc => (htail c hc).1)]
    simp only []
    rw [show ('/' :: (path' ++ '?' :: query) : Str) =
        ('/' :: path') ++ '?' :: query from rfl,
      breakAtFirst_split (fun c hc => (hp2 c hc).2)]
    simp only []
    rw [splitParamsPart_no_semi hp3, ite_self]

/-- Round trip: parsing an `urlunsplit` with empty netloc and a scheme
outside `uses_netloc` recovers the components. -/
theorem urlparse_unsplit_rel
    (scheme path query : Str)
    (hs : scheme ≠ []) (hsall : scheme.all isSchemeChar = true)
    (hsalpha : isAsciiAlpha (scheme.headD ' ') = true)
    (hslow : pyLower scheme = scheme)
    (hp0 : path ≠ [])
    (hp2 : ∀ c ∈ path, c ≠ '#' ∧ c ≠ '?')
    (hpu : ∀ c ∈ path, isUnsafeUrlByte c = false)
    (hp3 : ';' ∉ path)
    (hptake : path.take 2 ≠ ['/', '/'])
    (hq : ∀ c ∈ query, c ≠ '#')
    (hqu : ∀ c ∈ query, isUnsafeUrlByte c = false)
    (hB : scheme ∉ uses_netloc) :
    urlparse (urlunsplit scheme [] path query []) =
      some ⟨scheme, [], path, [], query, []⟩ := by
  have hcond : ¬ ((([] : Str) ≠ []) ∨ (scheme ≠ [] ∧ scheme ∈ uses_netloc ∧
      path.take 2 ≠ ['/', '/'])) := by
    rintro (h | ⟨_, h2, _⟩)
    · exact h rfl
    · exact hB h2
  have hs32 : 0x20 < (scheme.headD ' ').toNat := by
    have h := isAsciiAlpha_iff.mp hsalpha
    omega
  by_cases hqe : query = []
  · subst hqe
    have hO : urlunsplit scheme [] path [] [] = scheme ++ ':' :: path := by
      unfold urlunsplit
      simp only []
      rw [if_neg hcond, if_pos hs, if_neg (by simp), if_neg (by simp)]
    rw [hO, urlparse_eq]
    have hsan : sanitizeUrl (scheme ++ ':' :: path) = scheme ++ ':' :: path := by
      cases scheme with
      | nil => exact absurd rfl hs
      | cons s0 s1 =>
        rw [List.cons_append]
        refine sanitizeUrl_cons ?_ ?_
        · simpa using hs32
        · intro d hd
          rw [← List.cons_append] at hd
          rcases List.mem_append.mp hd with hd | hd
          · have hd' := List.all_eq_true.mp hsall d hd
            rw [isSchemeChar_iff] at hd'
            refine Bool.eq_false_iff.mpr (fun ht => ?_)
            rw [isUnsafeUrlByte_iff] at ht
            omega
          · rcases List.mem_cons.mp hd with rfl | hd
            · decide
            · exact hpu d hd
    rw [hsan, splitScheme_exact hs hsall hsalpha hslow]
    simp only []
    rw [splitNetloc_eq, if_neg hptake]
    simp only []
    rw [breakAtFirst_no_sep (fun c hc => (hp2 c hc).1)]
    simp only []
    rw [breakAtFirst_no_sep (fun c hc => (hp2 c hc).2)]
    simp only []
    rw [splitParamsPart_no_semi hp3, ite_self]
  · have hO : urlunsplit scheme [] path query [] =
        scheme ++ ':' :: (path ++ '?' :: query) := by
      unfold urlunsplit
      simp only []
      rw [if_neg hcond, if_pos hs, if_pos hqe, if_neg (by simp)]
      simp [List.append_assoc]
    have htail : ∀ c ∈ path ++ '?' :: query,
        c ≠ '#' ∧ isUnsafeUrlByte c = false := by
      intro c hc
      rcases List.mem_append.mp hc with hc | hc
      · exact ⟨(hp2 c hc).1, hpu c hc⟩
      rcases List.mem_cons.mp hc with rfl | hc
      · exact ⟨by decide, by decide⟩
      · exact ⟨hq c hc, hqu c hc⟩
    have htk : (path ++ '?' :: query).take 2 ≠ ['/', '/'] := by
      cases path with
      | nil => exact absurd rfl hp0
      | cons c1 t1 =>
        cases t1 with
        | nil =>
          intro h
          simp at h
        | cons c2 t2 =>
          exact fun h => hptake h
    rw [hO, urlparse_eq]
    have hsan : sanitizeUrl (scheme ++ ':' :: (path ++ '?' :: query)) =
        scheme ++ ':' :: (path ++ '?' :: query) := by
      cases scheme with
      | nil => exact absurd rfl hs
      | cons s0 s1 =>
        rw [List.cons_append]
        refine sanitizeUrl_cons ?_ ?_
        · simpa using hs32
        · intro d hd
          rw [← List.cons_append] at hd
          rcases List.mem_append.mp hd with hd | hd
          · have hd' := List.all_eq_true.mp hsall d hd
            rw [isSchemeChar_iff] at hd'
            refine Bool.eq_false_iff.mpr (fun ht => ?_)
            rw [isUnsafeUrlByte_iff] at ht
            omega
          · rcases List.mem_cons.mp hd with rfl | hd
            · decide
            · exact (htail d hd).2
    rw [hsan, splitScheme_exact hs hsall hsalpha hslow]
    simp only []
    rw [splitNetloc_eq, if_neg htk]
    simp only []
    rw [breakAtFirst_no_sep (fun c hc => (htail c hc).1)]
    simp only []
    rw [breakAtFirst_split (fun c hc => (hp2 c hc).2)]
    simp only []
    rw [splitParamsPart_no_semi hp3, ite_self]

end News
namespace News

/-- `urlunsplit` with a nonempty scheme is nonempty. -/
theorem urlunsplit_ne_nil {scheme netloc path query fragment : Str}
    (hs : scheme ≠ []) :
    urlunsplit scheme netloc path query fragment ≠ [] := by
  unfold urlunsplit
  simp only []
  split_ifs with h1 h2 h3 h4 h5 h6 h7 <;> simp_all

/-- `normalize_link` on a nonempty URL that parses to a non-aggregator
netloc: the general rebuild branch, written out. -/
theorem normalize_link_of_parse {O : Str} {q : UrlParts}
    (hO : O ≠ []) (hq : urlparse O = some q)
    (hgen : List.isSuffixOf "news.naver.com".toList (pyLower q.netloc) = false) :
    normalize_link O = urlunsplit
      (if pyLower q.scheme = [] then "https".toList else pyLower q.scheme)
      (pyLower q.netloc)
      (if rstripSlash q.path = [] then ['/'] else rstripSlash q.path)
      (urlencode (((parse_qs true q.query).filter
          (fun pr => ¬ pr.1 ∈ TRACKING_PARAMS)).map
        (fun pr => (pr.1, pySorted pr.2)))) [] := by
  unfold normalize_link
  rw [if_neg hO, hq]
  simp only []
  rw [if_neg (show ¬ (List.isSuffixOf "news.naver.com".toList
      (pyLower q.netloc) = true) from by rw [hgen]; exact Bool.false_ne_true)]
  unfold urlunparse
  rw [if_neg (show ¬ (([] : Str) ≠ []) from fun h => h rfl)]

end News
namespace News

/-- C3 (amended): `normalize_link` is idempotent on every URL that parses
with a non-aggregator netloc, a parameter-free path and — when the netloc
is empty — a path that does not rebuild to a `//` prefix. -/
theorem claim_C3_normalize_link_idempotent
    (url : Str) (p : UrlParts)
    (hp : urlparse url = some p)
    (hgen : List.isSuffixOf "news.naver.com".toList (pyLower p.netloc) = false)
    (hsemi : ';' ∉ p.path)
    (hslash : p.netloc = [] → (rstripSlash p.path).take 2 ≠ ['/', '/']) :
    normalize_link (normalize_link url) = normalize_link url := by
  by_cases hu : url = []
  · subst hu
    rfl
  obtain ⟨hischeme, hinetloc, hibr, hipath, hihead⟩ := urlparse_inv hp
  rw [normalize_link_of_parse hu hp hgen]
  set S := if pyLower p.scheme = [] then "https".toList else pyLower p.scheme
    with hS
  set N := pyLower p.netloc with hN
  set P := if rstripSlash p.path = [] then ['/'] else rstripSlash p.path with hP
  set m := ((parse_qs true p.query).filter
      (fun pr => ¬ pr.1 ∈ TRACKING_PARAMS)).map
    (fun pr => (pr.1, pySorted pr.2)) with hm
  have hSprops : S ≠ [] ∧ S.all isSchemeChar = true ∧
      isAsciiAlpha (S.headD ' ') = true ∧ pyLower S = S := by
    by_cases hps : p.scheme = []
    · have h1 : S = "https".toList := by
        rw [hS, hps]
        rfl
      rw [h1]
      exact ⟨by decide, by decide, by decide, by decide⟩
    · obtain ⟨hall, halpha, hlow⟩ := hischeme hps
      have h1 : S = p.scheme := by
        rw [hS, hlow, if_neg hps]
      rw [h1]
      exact ⟨hps, hall, halpha, hlow⟩
  obtain ⟨hSne, hSall, hSalpha, hSlow⟩ := hSprops
  have hNdelim : ∀ c ∈ N, isNetlocDelim c = false := by
    intro c hc
    rw [hN] at hc
    obtain ⟨d, hd, rfl⟩ := List.mem_map.mp hc
    exact asciiLower_not_delim (hinetloc d hd).1
  have hNunsafe : ∀ c ∈ N, isUnsafeUrlByte c = false := by
    intro c hc
    rw [hN] at hc
    obtain ⟨d, hd, rfl⟩ := List.mem_map.mp hc
    exact asciiLower_not_unsafe (hinetloc d hd).2
  have hNbr : ¬ ((('[' ∈ N) ∧ (']' ∉ N)) ∨ ((']' ∈ N) ∧ ('[' ∉ N))) := by
    rw [hN, mem_pyLower_bracket (b := '[') (Or.inl rfl),
      mem_pyLower_bracket (b := ']') (Or.inr rfl)]
    exact hibr
  have hNlow : pyLower N = N := by
    rw [hN]
    exact pyLower_idem _
  have hPchars : ∀ c ∈ P, (c ≠ '#' ∧ c ≠ '?') ∧ isUnsafeUrlByte c = false ∧
      c ≠ ';' := by
    intro c hc
    rw [hP] at hc
    by_cases hrs : rstripSlash p.path = []
    · rw [if_pos hrs, List.mem_singleton] at hc
      subst hc
      exact ⟨⟨by decide, by decide⟩, by decide, by decide⟩
    · rw [if_neg hrs] at hc
      have hcp := mem_rstripSlash hc
      exact ⟨⟨(hipath c hcp).1, (hipath c hcp).2.1⟩, (hipath c hcp).2.2,
        fun he => hsemi (he ▸ hcp)⟩
  have hPne : P ≠ [] := by
    rw [hP]
    by_cases hrs : rstripSlash p.path = []
    · rw [if_pos hrs]
      simp
    · rw [if_neg hrs]
      exact hrs
  have hPsemi : ';' ∉ P := fun hc => (hPchars ';' hc).2.2 rfl
  have hPstab : (if rstripSlash P = [] then ['/'] else rstripSlash P) = P := by
    rw [hP]
    by_cases hrs : rstripSlash p.path = []
    · rw [if_pos hrs]
      rfl
    · rw [if_neg hrs, rstripSlash_idem, if_neg hrs]
  have hQhash : ∀ c ∈ urlencode m, c ≠ '#' :=
    fun c hc => (urlencode_char_facts hc).1
  have hQunsafe : ∀ c ∈ urlencode m, isUnsafeUrlByte c = false :=
    fun c hc => (urlencode_char_facts hc).2
  have hmkeys : ∀ pr ∈ m, pr.1 ∉ TRACKING_PARAMS := by
    intro pr hpr
    rw [hm] at hpr
    obtain ⟨pr', hpr', rfl⟩ := List.mem_map.mp hpr
    have h' := List.of_mem_filter hpr'
    simpa using h'
  have hmnd : (m.map Prod.fst).Nodup := by
    rw [hm, List.map_map]
    have hsub : (((parse_qs true p.query).filter
        (fun pr => ¬ pr.1 ∈ TRACKING_PARAMS)).map Prod.fst).Sublist
        ((parse_qs true p.query).map Prod.fst) :=
      (List.filter_sublist _).map _
    exact List.Nodup.sublist hsub (parse_qs_keys_nodup true p.query)
  have hmne : ∀ pr ∈ m, pr.2 ≠ [] := by
    intro pr hpr
    rw [hm] at hpr
    obtain ⟨pr', hpr', rfl⟩ := List.mem_map.mp hpr
    have h1 : pr'.2 ≠ [] := parse_qs_value_lists_ne_nil pr'
      (List.Sublist.mem hpr' (List.filter_sublist _))
    intro hcon
    have hcon' : pySorted pr'.2 = [] := hcon
    have hp2 := (List.perm_insertionSort (· ≤ ·) pr'.2).symm
    rw [show List.insertionSort (· ≤ ·) pr'.2 = pySorted pr'.2 from rfl,
      hcon'] at hp2
    exact h1 hp2.eq_nil
  have hmfix1 : m.filter (fun pr => ¬ pr.1 ∈ TRACKING_PARAMS) = m :=
    List.filter_eq_self.mpr (fun pr hpr => by simp [hmkeys pr hpr])
  have hmfix2 : m.map (fun pr => (pr.1, pySorted pr.2)) = m := by
    refine map_eq_self_of (fun pr hpr => ?_)
    rw [hm] at hpr
    obtain ⟨pr', hpr', rfl⟩ := List.mem_map.mp hpr
    show (pr'.1, pySorted (pySorted pr'.2)) = (pr'.1, pySorted pr'.2)
    rw [show pySorted (pySorted pr'.2) = pySorted pr'.2 from
      List.Sorted.insertionSort_eq (List.sorted_insertionSort _ _)]
  have hQ2 : parse_qs true (urlencode m) = m := parse_qs_urlencode m hmnd hmne
  by_cases hnloc : p.netloc = []
  · -- empty netloc
    have hNnil : N = [] := by
      rw [hN, hnloc]
      rfl
    have hgen0 : List.isSuffixOf "news.naver.com".toList ([] : Str) = false := by
      decide
    have hPtake2 : P.take 2 ≠ ['/', '/'] := by
      rw [hP]
      by_cases hrs : rstripSlash p.path = []
      · rw [if_pos hrs]
        decide
      · rw [if_neg hrs]
        exact hslash hnloc
    by_cases hmem : S ∈ uses_netloc
    · by_cases hPh : P.take 1 = ['/']
      · -- scheme uses netloc, path already absolute
        obtain ⟨d, P', hdP⟩ := List.exists_cons_of_ne_nil hPne
        have hds : d = '/' := by
          rw [hdP] at hPh
          simpa using hPh
        subst hds
        have hq2 : urlparse (urlunsplit S N P (urlencode m) []) =
            some ⟨S, N, P, [], urlencode m, []⟩ := by
          rw [hdP, hNnil]
          exact urlparse_unsplit_abs S [] P' (urlencode m) hSne hSall hSalpha
            hSlow (by simp) (by simp) (by simp)
            (fun c hc => (hPchars c (by rw [hdP]; exact hc)).1)
            (fun c hc => (hPchars c (by rw [hdP]; exact hc)).2.1)
            (fun hc => hPsemi (by rw [hdP]; exact hc))
            hQhash hQunsafe
            (Or.inr ⟨hmem, by rw [← hdP]; exact hPtake2⟩)
        rw [normalize_link_of_parse (urlunsplit_ne_nil hSne) hq2 ?hgen2a]
        case hgen2a =>
          show List.isSuffixOf "news.naver.com".toList (pyLower N) = false
          rw [hNlow]
          exact hgen
        simp only []
        rw [hSlow, if_neg hSne, hNlow, hQ2, hmfix1, hmfix2, hPstab]
      · -- scheme uses netloc, relative path: a slash is prepended once
        have hrsP : rstripSlash p.path ≠ [] ∧ P = rstripSlash p.path := by
          by_cases hrs0 : rstripSlash p.path = []
          · exfalso
            apply hPh
            rw [hP, if_pos hrs0]
            rfl
          · exact ⟨hrs0, by rw [hP, if_neg hrs0]⟩
        have hPfix : rstripSlash P = P := by
          rw [hrsP.2]
          exact rstripSlash_idem _
        have hPne' : rstripSlash P ≠ [] := by
          rw [hPfix]
          exact hPne
        have htk2 : ('/' :: P : Str).take 2 ≠ ['/', '/'] := by
          obtain ⟨d, t, hdt⟩ := List.exists_cons_of_ne_nil hPne
          rw [hdt]
          intro hcon
          apply hPh
          have hd : d = '/' := by simpa using hcon
          rw [hdt, hd]
          rfl
        have hsame : urlunsplit S [] P (urlencode m) [] =
            urlunsplit S [] ('/' :: P) (urlencode m) [] := by
          unfold urlunsplit
          simp only []
          rw [if_pos (Or.inr ⟨hSne, hmem, hPtake2⟩),
            if_pos (Or.inr ⟨hSne, hmem, htk2⟩),
            if_pos (show P ≠ [] ∧ P.take 1 ≠ ['/'] from ⟨hPne, hPh⟩),
            if_neg (show ¬ (('/' :: P : Str) ≠ [] ∧
              ('/' :: P : Str).take 1 ≠ ['/']) from fun h => h.2 rfl)]
        have hq2 : urlparse (urlunsplit S N P (urlencode m) []) =
            some ⟨S, [], '/' :: P, [], urlencode m, []⟩ := by
          rw [hNnil, hsame]
          exact urlparse_unsplit_abs S [] P (urlencode m) hSne hSall hSalpha
            hSlow (by simp) (by simp) (by simp)
            (fun c hc => by
              rcases List.mem_cons.mp hc with rfl | hc
              · exact ⟨by decide, by decide⟩
              · exact (hPchars c hc).1)
            (fun c hc => by
              rcases List.mem_cons.mp hc with rfl | hc
              · decide
              · exact (hPchars c hc).2.1)
            (fun hc => by
              rcases List.mem_cons.mp hc with h | h
              · exact absurd h (by decide)
              · exact hPsemi h)
            hQhash hQunsafe (Or.inr ⟨hmem, htk2⟩)
        rw [normalize_link_of_parse (urlunsplit_ne_nil hSne) hq2 ?hgen2b]
        case hgen2b => exact hgen0
        simp only []
        rw [hSlow, if_neg hSne, show pyLower ([] : Str) = ([] : Str) from rfl,
          hQ2, hmfix1, hmfix2, rstripSlash_cons '/' hPne', hPfix,
          if_neg (show ¬ (('/' :: P : Str) = []) by simp), hNnil]
        exact hsame.symm
    · -- scheme outside uses_netloc
      have hq2 : urlparse (urlunsplit S N P (urlencode m) []) =
          some ⟨S, [], P, [], urlencode m, []⟩ := by
        rw [hNnil]
        exact urlparse_unsplit_rel S P (urlencode m) hSne hSall hSalpha hSlow
          hPne (fun c hc => (hPchars c hc).1) (fun c hc => (hPchars c hc).2.1)
          hPsemi hPtake2 hQhash hQunsafe hmem
      rw [normalize_link_of_parse (urlunsplit_ne_nil hSne) hq2 ?hgen2c]
      case hgen2c => exact hgen0
      simp only []
      rw [hSlow, if_neg hSne, show pyLower ([] : Str) = ([] : Str) from rfl,
        hQ2, hmfix1, hmfix2, hPstab, hNnil]
  · -- nonempty netloc
    have hNne : N ≠ [] := by
      rw [hN]
      intro hcon
      exact hnloc (by simpa [pyLower] using hcon)
    have hP1 : P.take 1 = ['/'] := by
      rw [hP]
      rcases hihead hnloc with h0 | h0
      · rw [h0]
        rfl
      · cases hpp : p.path with
        | nil =>
          rw [hpp] at h0
          simp at h0
        | cons c0 t0 =>
          rw [hpp] at h0
          have hc0 : c0 = '/' := by simpa using h0
          subst hc0
          by_cases hrs : rstripSlash ('/' :: t0) = []
          · rw [if_pos hrs]
            rfl
          · rw [if_neg hrs]
            rcases @rstripSlash_head '/' t0 with h1 | h1
            · exact absurd h1 hrs
            · exact h1
    obtain ⟨d, P', hdP⟩ := List.exists_cons_of_ne_nil hPne
    have hds : d = '/' := by
      rw [hdP] at hP1
      simpa using hP1
    subst hds
    have hq2 : urlparse (urlunsplit S N P (urlencode m) []) =
        some ⟨S, N, P, [], urlencode m, []⟩ := by
      rw [hdP]
      exact urlparse_unsplit_abs S N P' (urlencode m) hSne hSall hSalpha hSlow
        hNdelim hNunsafe hNbr
        (fun c hc => (hPchars c (by rw [hdP]; exact hc)).1)
        (fun c hc => (hPchars c (by rw [hdP]; exact hc)).2.1)
        (fun hc => hPsemi (by rw [hdP]; exact hc))
        hQhash hQunsafe (Or.inl hNne)
    rw [normalize_link_of_parse (urlunsplit_ne_nil hSne) hq2 ?hgen2d]
    case hgen2d =>
      show List.isSuffixOf "news.naver.com".toList (pyLower N) = false
      rw [hNlow]
      exact hgen
    simp only []
    rw [hSlow, if_neg hSne, hNlow, hQ2, hmfix1, hmfix2, hPstab]

end News
namespace News

/-- C3 counterexample: three URLs that parse successfully yet are not
fixed points of a second `normalize_link` pass — an aggregator URL without
`oid`/`aid` (the naver branch emits a scheme-less key that re-parses as a
path), a path whose last segment carries a `;params` suffix (dropped only
on the second pass), and an empty-netloc URL whose path begins with `//`
(re-parsed as a netloc). -/
theorem claim_C3_counterexample :
    ((urlparse "https://news.naver.com/main".toList).isSome = true ∧
      normalize_link (normalize_link "https://news.naver.com/main".toList) ≠
        normalize_link "https://news.naver.com/main".toList) ∧
    ((urlparse "https://e.com/a;c/".toList).isSome = true ∧
      normalize_link (normalize_link "https://e.com/a;c/".toList) ≠
        normalize_link "https://e.com/a;c/".toList) ∧
    ((urlparse "https:////x".toList).isSome = true ∧
      normalize_link (normalize_link "https:////x".toList) ≠
        normalize_link "https:////x".toList) := by
  refine ⟨⟨by decide, by decide⟩, ⟨by decide, by decide⟩, ⟨by decide, by decide⟩⟩

/-- Witness: the amended idempotence theorem applied to a concrete URL,
with every hypothesis discharged by computation. -/
theorem claim_C3_witness :
    normalize_link
        (normalize_link "https://example.com/a?utm_source=x&id=1".toList) =
      normalize_link "https://example.com/a?utm_source=x&id=1".toList :=
  claim_C3_normalize_link_idempotent
    "https://example.com/a?utm_source=x&id=1".toList
    ⟨"https".toList, "example.com".toList, "/a".toList, [],
      "utm_source=x&id=1".toList, []⟩
    (by decide) (by decide) (by decide)
    (fun h => absurd h (by decide))

end News
